import Mathlib

/-!
Verification of the jsonvfy JSON syntax verifier.

The Rust sources (src/io_util.rs, src/tokenizer.rs, src/verifier.rs) are shallowly
embedded here.  A byte source is modelled as a `List Nat` of its bytes (each < 256 in
practice); the pull-based reader becomes explicit state passing: every reading function
takes the remaining byte list and returns its result together with the bytes it did not
consume.  `std::io` end-of-input errors surface as `Error.Io_UnexpectedEof` (the only
I/O error an in-memory source can produce).  Rust panics (`panic!`, `assert!`,
`Option::unwrap` on `None`) are modelled by the `PanicSite` outcomes, so that
reachability of each panic branch can be stated and settled.
-/

namespace Jsonvfy

/-- One logical unit of a JSON string as written (tokenizer.rs, enum JsonChar). -/
inductive JsonChar where
  | Byte (b : Nat)
  | EscapedQuote
  | EscapedBackslash
  | EscapedSlash
  | EscapedBackspace
  | EscapedFormFeed
  | EscapedLineFeed
  | EscapedCarriageReturn
  | EscapedTab
  | UnicodeEscape (u : Nat)
  deriving DecidableEq, Repr

/-- JSON tokens (tokenizer.rs, enum JsonToken).  `Number` carries the raw bytes. -/
inductive JsonToken where
  | OpeningBracket
  | ClosingBracket
  | OpeningBrace
  | ClosingBrace
  | Colon
  | Comma
  | String (s : List JsonChar)
  | Number (n : List Nat)
  | Null
  | False
  | True
  deriving DecidableEq, Repr

/-- Tokenizer errors (tokenizer.rs, enum Error).  `Io_UnexpectedEof` stands for
`Error::Io(e)` with `e.kind() == ErrorKind::UnexpectedEof`, the error produced by
`unwrap_eof` and by `read_exact` hitting end of input; an in-memory byte source
produces no other I/O error.  `InvalidBarewordBeginning` carries the code points of
the captured characters (each the value of the byte read, per
`char::from_u32(b as u32)`). -/
inductive Error where
  | Io_UnexpectedEof
  | UnknownEscape (b : Nat)
  | InvalidUnicodeEscape (bs : List Nat)
  | InvalidNumberCharacter (b : Nat)
  | InvalidBarewordBeginning (s : List Nat)
  | InvalidUtf8Sequence (seq : List JsonChar)
  | Utf8SequenceProducedSurrogate (v : Nat)
  | InvalidUtf16SurrogateSequence (seq : List JsonChar)
  deriving DecidableEq, Repr

/-- The places the Rust code can panic, plus the fuel marker of the embedded
verifier loop (`fuelExhausted` is proved unreachable for the fuel `verify` uses). -/
inductive PanicSite where
  | keyTopMismatch
  | colonTopMismatch
  | commaTopMismatch
  | closingBracketPopMismatch
  | closingBracePopMismatch
  | readStringAssertFailed
  | charFromU32Unwrap
  | fuelExhausted
  deriving DecidableEq, Repr

/-- Result of an embedded fallible computation: success, a returned `Error`, or a panic. -/
inductive Res (α : Type) where
  | ok (a : α)
  | err (e : Error)
  | panic (site : PanicSite)
  deriving DecidableEq, Repr

/-- Whitespace per `do_skip_whitespace` (tokenizer.rs): space, tab, line feed, carriage return. -/
def isWsByte (b : Nat) : Bool :=
  b == 0x20 || b == 0x09 || b == 0x0A || b == 0x0D

/-- skip_whitespace (tokenizer.rs): consume bytes up to the first non-whitespace byte.
The chunked `do_skip_whitespace` loop consumes exactly the leading whitespace run. -/
def skip_whitespace (l : List Nat) : List Nat :=
  l.dropWhile isWsByte

/-- get_simple_token (tokenizer.rs): the six single-byte structural tokens. -/
def get_simple_token (b : Nat) : Option JsonToken :=
  if b = 0x5B then some .OpeningBracket
  else if b = 0x5D then some .ClosingBracket
  else if b = 0x7B then some .OpeningBrace
  else if b = 0x7D then some .ClosingBrace
  else if b = 0x3A then some .Colon
  else if b = 0x2C then some .Comma
  else none

/-- u8::is_ascii_hexdigit. -/
def isHexDigitByte (b : Nat) : Bool :=
  (0x30 ≤ b && b ≤ 0x39) || (0x41 ≤ b && b ≤ 0x46) || (0x61 ≤ b && b ≤ 0x66)

/-- Value of one ASCII hex digit byte. -/
def hexDigitValue (b : Nat) : Nat :=
  if b ≤ 0x39 then b - 0x30 else if b ≤ 0x46 then b - 0x37 else b - 0x57

/-- u16::from_str_radix(_, 16) on four ASCII hex digit bytes. -/
def hexValue (h1 h2 h3 h4 : Nat) : Nat :=
  4096 * hexDigitValue h1 + 256 * hexDigitValue h2 + 16 * hexDigitValue h3 + hexDigitValue h4

/-- The eight fixed single-character escape arms of read_string's escape match
(tokenizer.rs lines 142-149), written as a lookup from the escape byte. -/
def escape_char (b : Nat) : Option JsonChar :=
  if b = 0x22 then some .EscapedQuote
  else if b = 0x5C then some .EscapedBackslash
  else if b = 0x2F then some .EscapedSlash
  else if b = 0x62 then some .EscapedBackspace
  else if b = 0x66 then some .EscapedFormFeed
  else if b = 0x6E then some .EscapedLineFeed
  else if b = 0x72 then some .EscapedCarriageReturn
  else if b = 0x74 then some .EscapedTab
  else none

/-- The byte-eating loop of read_string (tokenizer.rs), after the opening quote was
consumed.  Second argument is the `escaping` flag, third the accumulated characters.
The `\u` branch reads exactly four bytes via `read_exact` (fewer available is an
end-of-input error). -/
def read_string_loop : List Nat → Bool → List JsonChar → Res (List JsonChar × List Nat)
  | [], _, _ => .err .Io_UnexpectedEof
  | b :: rest, true, string =>
    if b = 0x75 then
      match rest with
      | h1 :: h2 :: h3 :: h4 :: rest4 =>
        if isHexDigitByte h1 && isHexDigitByte h2 && isHexDigitByte h3 && isHexDigitByte h4 then
          read_string_loop rest4 false (string ++ [.UnicodeEscape (hexValue h1 h2 h3 h4)])
        else .err (.InvalidUnicodeEscape [h1, h2, h3, h4])
      | _ => .err .Io_UnexpectedEof
    else
      (escape_char b).elim (.err (.UnknownEscape b))
        (fun ec => read_string_loop rest false (string ++ [ec]))
  | b :: rest, false, string =>
    if b = 0x22 then .ok (string, rest)
    else if b = 0x5C then read_string_loop rest true string
    else read_string_loop rest false (string ++ [.Byte b])

/-- read_string (tokenizer.rs).  The first byte is asserted to be a quotation mark
(assert_eq!), modelled as the `readStringAssertFailed` panic site. -/
def read_string : List Nat → Res (List JsonChar × List Nat)
  | [] => .err .Io_UnexpectedEof
  | b :: rest => if b = 0x22 then read_string_loop rest false [] else .panic .readStringAssertFailed

/-- Number-grammar states (read_number_string, tokenizer.rs, enum ParserState). -/
inductive ParserState where
  | ExpectMinusOrZeroOrInitialMantissa
  | ExpectInitialMantissa
  | ExpectDotOrE
  | ExpectMantissaOrDotOrE
  | ExpectFractional
  | ExpectFractionalOrE
  | ExpectEPlusMinusOrInitialExponent
  | ExpectInitialExponent
  | ExpectExponent
  deriving DecidableEq, Repr

/-- ASCII decimal digit. -/
def isDigitByte (b : Nat) : Bool := 0x30 ≤ b && b ≤ 0x39

/-- The state-machine loop of read_number_string (tokenizer.rs).  States that require a
byte read it via `unwrap_eof` (end of input is an error); states where a byte is
optional peek and either consume it or return the accumulated buffer unconsumed. -/
def read_number_string_loop : List Nat → ParserState → List Nat → Res (List Nat × List Nat)
  | [], s, number_buf =>
    match s with
    | .ExpectMinusOrZeroOrInitialMantissa => .err .Io_UnexpectedEof
    | .ExpectInitialMantissa => .err .Io_UnexpectedEof
    | .ExpectFractional => .err .Io_UnexpectedEof
    | .ExpectEPlusMinusOrInitialExponent => .err .Io_UnexpectedEof
    | .ExpectInitialExponent => .err .Io_UnexpectedEof
    | _ => .ok (number_buf, [])
  | b :: rest, s, number_buf =>
    match s with
    | .ExpectMinusOrZeroOrInitialMantissa =>
      if b = 0x2D then read_number_string_loop rest .ExpectInitialMantissa (number_buf ++ [b])
      else if b = 0x30 then read_number_string_loop rest .ExpectDotOrE (number_buf ++ [b])
      else if 0x31 ≤ b ∧ b ≤ 0x39 then
        read_number_string_loop rest .ExpectMantissaOrDotOrE (number_buf ++ [b])
      else .err (.InvalidNumberCharacter b)
    | .ExpectInitialMantissa =>
      if b = 0x30 then read_number_string_loop rest .ExpectDotOrE (number_buf ++ [b])
      else if 0x31 ≤ b ∧ b ≤ 0x39 then
        read_number_string_loop rest .ExpectMantissaOrDotOrE (number_buf ++ [b])
      else .err (.InvalidNumberCharacter b)
    | .ExpectDotOrE =>
      if b = 0x2E then read_number_string_loop rest .ExpectFractional (number_buf ++ [b])
      else if b = 0x45 ∨ b = 0x65 then
        read_number_string_loop rest .ExpectEPlusMinusOrInitialExponent (number_buf ++ [b])
      else .ok (number_buf, b :: rest)
    | .ExpectMantissaOrDotOrE =>
      if isDigitByte b then read_number_string_loop rest .ExpectMantissaOrDotOrE (number_buf ++ [b])
      else if b = 0x2E then read_number_string_loop rest .ExpectFractional (number_buf ++ [b])
      else if b = 0x45 ∨ b = 0x65 then
        read_number_string_loop rest .ExpectEPlusMinusOrInitialExponent (number_buf ++ [b])
      else .ok (number_buf, b :: rest)
    | .ExpectFractional =>
      if isDigitByte b then read_number_string_loop rest .ExpectFractionalOrE (number_buf ++ [b])
      else .err (.InvalidNumberCharacter b)
    | .ExpectFractionalOrE =>
      if isDigitByte b then read_number_string_loop rest .ExpectFractionalOrE (number_buf ++ [b])
      else if b = 0x45 ∨ b = 0x65 then
        read_number_string_loop rest .ExpectEPlusMinusOrInitialExponent (number_buf ++ [b])
      else .ok (number_buf, b :: rest)
    | .ExpectEPlusMinusOrInitialExponent =>
      if b = 0x2B ∨ b = 0x2D then
        read_number_string_loop rest .ExpectInitialExponent (number_buf ++ [b])
      else if isDigitByte b then read_number_string_loop rest .ExpectExponent (number_buf ++ [b])
      else .err (.InvalidNumberCharacter b)
    | .ExpectInitialExponent =>
      if isDigitByte b then read_number_string_loop rest .ExpectExponent (number_buf ++ [b])
      else .err (.InvalidNumberCharacter b)
    | .ExpectExponent =>
      if isDigitByte b then read_number_string_loop rest .ExpectExponent (number_buf ++ [b])
      else .ok (number_buf, b :: rest)

/-- read_number_string (tokenizer.rs). -/
def read_number_string (l : List Nat) : Res (List Nat × List Nat) :=
  read_number_string_loop l .ExpectMinusOrZeroOrInitialMantissa []

/-- read_next_token (tokenizer.rs): skip whitespace, peek, dispatch.  The bareword
branch reads exactly four bytes via `read_exact`; `fals` requires one further byte. -/
def read_next_token (l : List Nat) : Res (Option JsonToken × List Nat) :=
  match skip_whitespace l with
  | [] => .ok (none, [])
  | b :: rest =>
    match get_simple_token b with
    | some t => .ok (some t, rest)
    | none =>
      if b = 0x22 then
        match read_string (b :: rest) with
        | .ok (s, r) => .ok (some (.String s), r)
        | .err e => .err e
        | .panic p => .panic p
      else if b = 0x2D ∨ isDigitByte b = true then
        match read_number_string (b :: rest) with
        | .ok (n, r) => .ok (some (.Number n), r)
        | .err e => .err e
        | .panic p => .panic p
      else
        match b :: rest with
        | b1 :: b2 :: b3 :: b4 :: tail =>
          if b1 = 0x74 ∧ b2 = 0x72 ∧ b3 = 0x75 ∧ b4 = 0x65 then .ok (some .True, tail)
          else if b1 = 0x6E ∧ b2 = 0x75 ∧ b3 = 0x6C ∧ b4 = 0x6C then .ok (some .Null, tail)
          else if b1 = 0x66 ∧ b2 = 0x61 ∧ b3 = 0x6C ∧ b4 = 0x73 then
            match tail with
            | [] => .err .Io_UnexpectedEof
            | c :: tail2 =>
              if c = 0x65 then .ok (some .False, tail2)
              else .err (.InvalidBarewordBeginning [0x66, 0x61, 0x6C, 0x73, c])
          else .err (.InvalidBarewordBeginning [b1, b2, b3, b4])
        | _ => .err .Io_UnexpectedEof

/-- char::from_u32: `some v` for a Unicode scalar value, `none` for surrogates and
values above 0x10FFFF.  Decoded text is modelled as the list of scalar values. -/
def char_from_u32 (v : Nat) : Option Nat :=
  if v < 0xD800 || (0xDFFF < v && v ≤ 0x10FFFF) then some v else none

/-- get_next_json_char_byte (tokenizer.rs): check one iterator element for a UTF-8
continuation byte.  The iterator advance itself happens at the call sites in
`interpret_string`, which pass the head of the remaining character list. -/
def get_next_json_char_byte (previous_bytes : List Nat) (oc : Option JsonChar) : Res Nat :=
  match oc with
  | some (JsonChar.Byte b2) =>
    if b2 &&& 0xC0 = 0x80 then .ok b2
    else .err (.InvalidUtf8Sequence (previous_bytes.map JsonChar.Byte ++ [JsonChar.Byte b2]))
  | some other => .err (.InvalidUtf8Sequence (previous_bytes.map JsonChar.Byte ++ [other]))
  | none => .err (.InvalidUtf8Sequence (previous_bytes.map JsonChar.Byte))

/-- Prepend a decoded scalar value to the result of the rest of the interpretation. -/
def res_cons (v : Nat) : Res (List Nat) → Res (List Nat)
  | .ok t => .ok (v :: t)
  | .err e => .err e
  | .panic p => .panic p

/-- Sequencing of a continuation-byte read with the rest of the interpretation
(the `?` operator applied to a `get_next_json_char_byte` result). -/
def res_bind_byte (x : Res Nat) (f : Nat → Res (List Nat)) : Res (List Nat) :=
  match x with
  | .ok b => f b
  | .err e => .err e
  | .panic p => .panic p

/-- One step of interpret_string (tokenizer.rs); `k` interprets the remaining
characters.  Raw bytes are reassembled as UTF-8 (with no overlong-form check);
Unicode escapes are interpreted as UTF-16 code units.  The low-surrogate guard
compares `u`, not `u2`, against 0xDFFF, exactly as the source does, and the
`char::from_u32(char_value).unwrap()` of the surrogate-pair branch is the
`charFromU32Unwrap` panic site. -/
def interpret_string_step (k : List JsonChar → Res (List Nat)) (cs : List JsonChar) :
    Res (List Nat) :=
  match cs with
  | [] => .ok []
  | c :: rest =>
    match c with
    | .Byte b =>
      if b &&& 0x80 = 0 then res_cons b (k rest)
      else if b &&& 0xE0 = 0xC0 then
        match rest with
        | [] => .err (.InvalidUtf8Sequence [.Byte b])
        | c2 :: rest2 =>
          res_bind_byte (get_next_json_char_byte [b] (some c2)) (fun b2 =>
            (char_from_u32 (((b &&& 0x1F) <<< 6) ||| (b2 &&& 0x3F))).elim
              (.err (.Utf8SequenceProducedSurrogate (((b &&& 0x1F) <<< 6) ||| (b2 &&& 0x3F))))
              (fun cv => res_cons cv (k rest2)))
      else if b &&& 0xF0 = 0xE0 then
        match rest with
        | [] => .err (.InvalidUtf8Sequence [.Byte b])
        | c2 :: rest2 =>
          res_bind_byte (get_next_json_char_byte [b] (some c2)) (fun b2 =>
            match rest2 with
            | [] => .err (.InvalidUtf8Sequence [.Byte b, .Byte b2])
            | c3 :: rest3 =>
              res_bind_byte (get_next_json_char_byte [b, b2] (some c3)) (fun b3 =>
                (char_from_u32
                    (((b &&& 0x0F) <<< 12) ||| ((b2 &&& 0x3F) <<< 6) ||| (b3 &&& 0x3F))).elim
                  (.err (.Utf8SequenceProducedSurrogate
                    (((b &&& 0x0F) <<< 12) ||| ((b2 &&& 0x3F) <<< 6) ||| (b3 &&& 0x3F))))
                  (fun cv => res_cons cv (k rest3))))
      else if b &&& 0xF8 = 0xF0 then
        match rest with
        | [] => .err (.InvalidUtf8Sequence [.Byte b])
        | c2 :: rest2 =>
          res_bind_byte (get_next_json_char_byte [b] (some c2)) (fun b2 =>
            match rest2 with
            | [] => .err (.InvalidUtf8Sequence [.Byte b, .Byte b2])
            | c3 :: rest3 =>
              res_bind_byte (get_next_json_char_byte [b, b2] (some c3)) (fun b3 =>
                match rest3 with
                | [] => .err (.InvalidUtf8Sequence [.Byte b, .Byte b2, .Byte b3])
                | c4 :: rest4 =>
                  res_bind_byte (get_next_json_char_byte [b, b2, b3] (some c4)) (fun b4 =>
                    (char_from_u32
                        (((b &&& 0x07) <<< 18) ||| ((b2 &&& 0x3F) <<< 12) |||
                          ((b3 &&& 0x3F) <<< 6) ||| (b4 &&& 0x3F))).elim
                      (.err (.Utf8SequenceProducedSurrogate
                        (((b &&& 0x07) <<< 18) ||| ((b2 &&& 0x3F) <<< 12) |||
                          ((b3 &&& 0x3F) <<< 6) ||| (b4 &&& 0x3F))))
                      (fun cv => res_cons cv (k rest4)))))
      else .err (.InvalidUtf8Sequence [.Byte b])
    | .EscapedQuote => res_cons 0x22 (k rest)
    | .EscapedBackslash => res_cons 0x5C (k rest)
    | .EscapedSlash => res_cons 0x2F (k rest)
    | .EscapedBackspace => res_cons 0x08 (k rest)
    | .EscapedFormFeed => res_cons 0x0C (k rest)
    | .EscapedLineFeed => res_cons 0x0A (k rest)
    | .EscapedCarriageReturn => res_cons 0x0D (k rest)
    | .EscapedTab => res_cons 0x09 (k rest)
    | .UnicodeEscape u =>
      if 0xD800 ≤ u && u ≤ 0xDBFF then
        match rest with
        | JsonChar.UnicodeEscape u2 :: rest2 =>
          if 0xDC00 ≤ u2 && u ≤ 0xDFFF then
            (char_from_u32 (0x10000 + ((u - 0xD800) <<< 10) + (u2 - 0xDC00))).elim
              (.panic .charFromU32Unwrap)
              (fun cv => res_cons cv (k rest2))
          else .err (.InvalidUtf16SurrogateSequence [.UnicodeEscape u, .UnicodeEscape u2])
        | other :: _ => .err (.InvalidUtf16SurrogateSequence [.UnicodeEscape u, other])
        | [] => .err (.InvalidUtf16SurrogateSequence [.UnicodeEscape u])
      else if 0xDC00 ≤ u && u ≤ 0xDFFF then
        .err (.InvalidUtf16SurrogateSequence [.UnicodeEscape u])
      else res_cons u (k rest)

/-- The character loop of interpret_string, driven by fuel.  Every iteration
consumes at least one character, so fuel one beyond the character count always
suffices (see the unfolding equation proved below). -/
def interpret_string_loop : Nat → List JsonChar → Res (List Nat)
  | 0, _ => .panic .fuelExhausted
  | fuel + 1, cs => interpret_string_step (interpret_string_loop fuel) cs

/-- interpret_string (tokenizer.rs): decode a character sequence to text. -/
def interpret_string (cs : List JsonChar) : Res (List Nat) :=
  interpret_string_loop (cs.length + 1) cs

/-- Container stack entries (verifier.rs, enum JsonStackValue).  `Object` carries the
set of canonical-decoded keys seen so far (the `BTreeSet<String>` is modelled as the
list of inserted keys, each a list of Unicode scalar values) and the pending key. -/
inductive JsonStackValue where
  | Array (current_index : Nat)
  | Object (known_keys : List (List Nat)) (current_key : Option (List Nat))
  deriving DecidableEq, Repr

namespace ParserExpects

/-- bitflags VALUE (verifier.rs). -/
def VALUE : Nat := 0x01

/-- bitflags KEY. -/
def KEY : Nat := 0x02

/-- bitflags COMMA. -/
def COMMA : Nat := 0x04

/-- bitflags COLON. -/
def COLON : Nat := 0x08

/-- bitflags CLOSING BRACKET flag (0x10). -/
def CLOSING_BRACKET : Nat := 0x10

/-- bitflags CLOSING BRACE flag (0x20). -/
def CLOSING_BRACE : Nat := 0x20

/-- bitflags `contains`: all bits of the flag are present in the mask. -/
def contains (e flag : Nat) : Bool := e &&& flag == flag

end ParserExpects

/-- Outcome of a `verify` run: the returned boolean, or a panic. -/
inductive VerifyOutcome where
  | result (b : Bool)
  | panicked (site : PanicSite)
  deriving DecidableEq, Repr

/-- The code after `verify`'s token loop (verifier.rs lines 229-249): the stack must
be empty and, after skipping whitespace, a peek must find no byte. -/
def verify_finish (json_stack : List JsonStackValue) (l : List Nat) : Bool :=
  if 0 < json_stack.length then false
  else
    match (skip_whitespace l).head? with
    | some _ => false
    | none => true

/-- One iteration of `verify`'s token loop (verifier.rs lines 42-227).  `k` is the
continuation for the next iteration; the stack's head is the Rust `Vec`'s last
element (its top).  Tokenizer errors print a diagnostic and return false; the
frame-mismatch `panic!` branches are the named panic sites. -/
def verify_step (k : List Nat → Nat → List JsonStackValue → VerifyOutcome)
    (l : List Nat) (expects : Nat) (json_stack : List JsonStackValue) : VerifyOutcome :=
  match read_next_token l with
  | .err _ => .result false
  | .panic p => .panicked p
  | .ok (none, r) => .result (verify_finish json_stack r)
  | .ok (some tok, r) =>
    match tok with
    | .String s =>
      match interpret_string s with
      | .err _ => .result false
      | .panic p => .panicked p
      | .ok processed_string =>
        if ParserExpects.contains expects ParserExpects.KEY then
          match json_stack with
          | .Object known_keys _ :: stack_rest =>
            if processed_string ∈ known_keys then .result false
            else
              k r ParserExpects.COLON
                (.Object (known_keys ++ [processed_string]) (some processed_string) :: stack_rest)
          | _ => .panicked .keyTopMismatch
        else if ParserExpects.contains expects ParserExpects.VALUE then
          match json_stack with
          | .Array _ :: _ =>
            k r (ParserExpects.COMMA ||| ParserExpects.CLOSING_BRACKET) json_stack
          | .Object _ _ :: _ =>
            k r (ParserExpects.COMMA ||| ParserExpects.CLOSING_BRACE) json_stack
          | [] => .result (verify_finish [] r)
        else .result false
    | .Null | .True | .False | .Number _ =>
      if ParserExpects.contains expects ParserExpects.VALUE then
        match json_stack with
        | .Array _ :: _ =>
          k r (ParserExpects.COMMA ||| ParserExpects.CLOSING_BRACKET) json_stack
        | .Object _ _ :: _ =>
          k r (ParserExpects.COMMA ||| ParserExpects.CLOSING_BRACE) json_stack
        | [] => .result (verify_finish [] r)
      else .result false
    | .Colon =>
      if ParserExpects.contains expects ParserExpects.COLON then
        match json_stack with
        | .Object _ _ :: _ => k r ParserExpects.VALUE json_stack
        | _ => .panicked .colonTopMismatch
      else .result false
    | .Comma =>
      if ParserExpects.contains expects ParserExpects.COMMA then
        match json_stack with
        | .Array i :: stack_rest => k r ParserExpects.VALUE (.Array (i + 1) :: stack_rest)
        | .Object known_keys _ :: stack_rest =>
          k r ParserExpects.KEY (.Object known_keys none :: stack_rest)
        | [] => .panicked .commaTopMismatch
      else .result false
    | .OpeningBracket =>
      if ParserExpects.contains expects ParserExpects.VALUE then
        k r (ParserExpects.VALUE ||| ParserExpects.CLOSING_BRACKET) (.Array 0 :: json_stack)
      else .result false
    | .ClosingBracket =>
      if ParserExpects.contains expects ParserExpects.CLOSING_BRACKET then
        match json_stack with
        | .Array _ :: stack_rest =>
          match stack_rest with
          | .Array _ :: _ =>
            k r (ParserExpects.COMMA ||| ParserExpects.CLOSING_BRACKET) stack_rest
          | .Object _ _ :: _ =>
            k r (ParserExpects.COMMA ||| ParserExpects.CLOSING_BRACE) stack_rest
          | [] => .result (verify_finish [] r)
        | _ => .panicked .closingBracketPopMismatch
      else .result false
    | .OpeningBrace =>
      if ParserExpects.contains expects ParserExpects.VALUE then
        k r (ParserExpects.KEY ||| ParserExpects.CLOSING_BRACE) (.Object [] none :: json_stack)
      else .result false
    | .ClosingBrace =>
      if ParserExpects.contains expects ParserExpects.CLOSING_BRACE then
        match json_stack with
        | .Object _ _ :: stack_rest =>
          match stack_rest with
          | .Array _ :: _ =>
            k r (ParserExpects.COMMA ||| ParserExpects.CLOSING_BRACKET) stack_rest
          | .Object _ _ :: _ =>
            k r (ParserExpects.COMMA ||| ParserExpects.CLOSING_BRACE) stack_rest
          | [] => .result (verify_finish [] r)
        | _ => .panicked .closingBracePopMismatch
      else .result false

/-- The token loop of `verify`, driven by fuel.  Each iteration of the Rust loop
consumes at least one byte, so fuel `l.length + 1` always suffices (proved below);
the `fuelExhausted` marker is unreachable for that fuel. -/
def verify_loop : Nat → List Nat → Nat → List JsonStackValue → VerifyOutcome
  | 0, _, _, _ => .panicked .fuelExhausted
  | fuel + 1, l, expects, json_stack => verify_step (verify_loop fuel) l expects json_stack

/-- The verifier loop started on `l` in a given state, with sufficient fuel. -/
def verify_from (l : List Nat) (expects : Nat) (json_stack : List JsonStackValue) :
    VerifyOutcome :=
  verify_loop (l.length + 1) l expects json_stack

/-- verify (verifier.rs): initial mask VALUE, empty stack. -/
def verify (l : List Nat) : VerifyOutcome :=
  verify_from l ParserExpects.VALUE []

/-- The continuation of the loop after a completed value, as a function of the
stack: recompute the mask from the stack top, or stop if the stack is empty. -/
def postValue (json_stack : List JsonStackValue) (rest : List Nat) : VerifyOutcome :=
  match json_stack with
  | .Array _ :: _ =>
    verify_from rest (ParserExpects.COMMA ||| ParserExpects.CLOSING_BRACKET) json_stack
  | .Object _ _ :: _ =>
    verify_from rest (ParserExpects.COMMA ||| ParserExpects.CLOSING_BRACE) json_stack
  | [] => .result (verify_finish [] rest)

/-! ## Spec-side grammar

The relations below state, in grammar form, which byte lists the verifier accepts.
They follow the RFC 8259 ABNF (whitespace around structural characters, values,
objects with members, arrays with elements, numbers, strings) with the behaviour the
code actually implements where it deviates: string content may be any bytes and
escapes whose decoding by `interpret_string` succeeds, and the keys of one object
must be pairwise distinct after decoding.  A separate, purely RFC 8259 grammar
(prefix `Rfc`) without those deviations appears further below. -/

/-- A list of whitespace bytes. -/
def WsList (w : List Nat) : Prop := ∀ b ∈ w, isWsByte b = true

/-- The byte list may legally follow a number token: empty, or starting with
whitespace or a separator.  None of these bytes extends a number. -/
def SepFollows (rest : List Nat) : Prop :=
  rest = [] ∨ ∃ c t, rest = c :: t ∧ (isWsByte c = true ∨ c = 0x2C ∨ c = 0x5D ∨ c = 0x7D)

/-- RFC 8259 number: optional minus part. -/
def MinusPart (ms : List Nat) : Prop := ms = [] ∨ ms = [0x2D]

/-- RFC 8259 number: int part, a zero or a nonzero digit followed by digits. -/
def IntPart (ip : List Nat) : Prop :=
  ip = [0x30] ∨ ∃ d ds, ip = d :: ds ∧ (0x31 ≤ d ∧ d ≤ 0x39) ∧ ∀ b ∈ ds, isDigitByte b = true

/-- RFC 8259 number: optional frac part, a dot followed by one or more digits. -/
def FracPart (fs : List Nat) : Prop :=
  fs = [] ∨ ∃ ds, fs = 0x2E :: ds ∧ ds ≠ [] ∧ ∀ b ∈ ds, isDigitByte b = true

/-- RFC 8259 number: optional exp part, an e or E, an optional sign, one or more digits. -/
def ExpPart (es : List Nat) : Prop :=
  es = [] ∨ ∃ e sgn ds, es = e :: (sgn ++ ds) ∧ (e = 0x65 ∨ e = 0x45) ∧
    (sgn = [] ∨ sgn = [0x2B] ∨ sgn = [0x2D]) ∧ ds ≠ [] ∧ ∀ b ∈ ds, isDigitByte b = true

/-- RFC 8259 number grammar over bytes. -/
def NumberBytes (n : List Nat) : Prop :=
  ∃ ms ip fs es, n = ms ++ ip ++ fs ++ es ∧ MinusPart ms ∧ IntPart ip ∧ FracPart fs ∧ ExpPart es

/-- The byte sequences each state of `read_number_string_loop` can still consume
before returning: the suffix languages of the RFC 8259 number grammar at the
corresponding positions. -/
def NumSuffix : ParserState → List Nat → Prop
  | .ExpectMinusOrZeroOrInitialMantissa, d => NumberBytes d
  | .ExpectInitialMantissa, d =>
      ∃ ip fs es, d = ip ++ fs ++ es ∧ IntPart ip ∧ FracPart fs ∧ ExpPart es
  | .ExpectDotOrE, d => ∃ fs es, d = fs ++ es ∧ FracPart fs ∧ ExpPart es
  | .ExpectMantissaOrDotOrE, d =>
      ∃ ds fs es, d = ds ++ fs ++ es ∧ (∀ b ∈ ds, isDigitByte b = true) ∧
        FracPart fs ∧ ExpPart es
  | .ExpectFractional, d =>
      ∃ ds es, d = ds ++ es ∧ ds ≠ [] ∧ (∀ b ∈ ds, isDigitByte b = true) ∧ ExpPart es
  | .ExpectFractionalOrE, d =>
      ∃ ds es, d = ds ++ es ∧ (∀ b ∈ ds, isDigitByte b = true) ∧ ExpPart es
  | .ExpectEPlusMinusOrInitialExponent, d =>
      ∃ sgn ds, d = sgn ++ ds ∧ (sgn = [] ∨ sgn = [0x2B] ∨ sgn = [0x2D]) ∧ ds ≠ [] ∧
        (∀ b ∈ ds, isDigitByte b = true)
  | .ExpectInitialExponent, d => d ≠ [] ∧ (∀ b ∈ d, isDigitByte b = true)
  | .ExpectExponent, d => ∀ b ∈ d, isDigitByte b = true

/-- Byte encoding of one string-content character unit, as `read_string` reads it:
a raw non-quote non-backslash byte, one of the eight fixed escapes, or a Unicode
escape with four hex digits. -/
inductive StrChar : List Nat → JsonChar → Prop where
  | raw (b : Nat) : b ≠ 0x22 → b ≠ 0x5C → StrChar [b] (.Byte b)
  | q : StrChar [0x5C, 0x22] .EscapedQuote
  | bsl : StrChar [0x5C, 0x5C] .EscapedBackslash
  | sl : StrChar [0x5C, 0x2F] .EscapedSlash
  | bsp : StrChar [0x5C, 0x62] .EscapedBackspace
  | ff : StrChar [0x5C, 0x66] .EscapedFormFeed
  | lf : StrChar [0x5C, 0x6E] .EscapedLineFeed
  | cr : StrChar [0x5C, 0x72] .EscapedCarriageReturn
  | tb : StrChar [0x5C, 0x74] .EscapedTab
  | uni (h1 h2 h3 h4 : Nat) : isHexDigitByte h1 = true → isHexDigitByte h2 = true →
      isHexDigitByte h3 = true → isHexDigitByte h4 = true →
      StrChar [0x5C, 0x75, h1, h2, h3, h4] (.UnicodeEscape (hexValue h1 h2 h3 h4))

/-- Byte encoding of a string's content as a character-unit sequence. -/
inductive StrChars : List Nat → List JsonChar → Prop where
  | nil : StrChars [] []
  | cons {b : List Nat} {c : JsonChar} {bs : List Nat} {cs : List JsonChar} :
      StrChar b c → StrChars bs cs → StrChars (b ++ bs) (c :: cs)

/-- A complete string token whose content decodes, under the string codec, to the
text `t` (a list of Unicode scalar values). -/
def GStrRel (b : List Nat) (t : List Nat) : Prop :=
  ∃ inner cs, b = 0x22 :: (inner ++ [0x22]) ∧ StrChars inner cs ∧ interpret_string cs = .ok t

/-- Nonterminals of the accepted-language grammar.  Besides `value` they name the
suffix languages of the in-progress positions of the verifier: inside an array
after the opening bracket, after a comma, or after an element; inside an object
after the opening brace, before a key, after a key, after the colon, or after a
member's value.  Object nonterminals carry the decoded keys seen so far. -/
inductive NT where
  | value
  | afterArrOpen
  | arrValue
  | arrTail
  | objOpenTail (ks : List (List Nat))
  | member (ks : List (List Nat))
  | postKey (ks : List (List Nat))
  | postColon (ks : List (List Nat))
  | objTail (ks : List (List Nat))
  deriving DecidableEq

/-- The grammar of the language the verifier accepts: RFC 8259 structure, strings
as in `GStrRel`, and object keys pairwise distinct after decoding. -/
inductive G : NT → List Nat → Prop where
  | null : G .value [0x6E, 0x75, 0x6C, 0x6C]
  | tru : G .value [0x74, 0x72, 0x75, 0x65]
  | fal : G .value [0x66, 0x61, 0x6C, 0x73, 0x65]
  | num {n : List Nat} : NumberBytes n → G .value n
  | str {b t : List Nat} : GStrRel b t → G .value b
  | arr {b : List Nat} : G .afterArrOpen b → G .value (0x5B :: b)
  | obj {b : List Nat} : G (.objOpenTail []) b → G .value (0x7B :: b)
  | arrNil {w : List Nat} : WsList w → G .afterArrOpen (w ++ [0x5D])
  | arrFirst {b : List Nat} : G .arrValue b → G .afterArrOpen b
  | arrValueI {w v t : List Nat} : WsList w → G .value v → G .arrTail t →
      G .arrValue (w ++ v ++ t)
  | arrClose {w : List Nat} : WsList w → G .arrTail (w ++ [0x5D])
  | arrComma {w b : List Nat} : WsList w → G .arrValue b → G .arrTail (w ++ 0x2C :: b)
  | objNil {w : List Nat} {ks : List (List Nat)} : WsList w → G (.objOpenTail ks) (w ++ [0x7D])
  | objFirst {b : List Nat} {ks : List (List Nat)} : G (.member ks) b → G (.objOpenTail ks) b
  | memberI {w s k b : List Nat} {ks : List (List Nat)} : WsList w → GStrRel s k → k ∉ ks →
      G (.postKey (ks ++ [k])) b → G (.member ks) (w ++ s ++ b)
  | postKeyI {w b : List Nat} {ks : List (List Nat)} : WsList w → G (.postColon ks) b →
      G (.postKey ks) (w ++ 0x3A :: b)
  | postColonI {w v t : List Nat} {ks : List (List Nat)} : WsList w → G .value v →
      G (.objTail ks) t → G (.postColon ks) (w ++ v ++ t)
  | objClose {w : List Nat} {ks : List (List Nat)} : WsList w → G (.objTail ks) (w ++ [0x7D])
  | objComma {w b : List Nat} {ks : List (List Nat)} : WsList w → G (.member ks) b →
      G (.objTail ks) (w ++ 0x2C :: b)

/-- One complete document: whitespace, one value, whitespace. -/
def GDoc (l : List Nat) : Prop :=
  ∃ w1 v w2, l = w1 ++ v ++ w2 ∧ WsList w1 ∧ G .value v ∧ WsList w2

/-- After all the given frames are closed in order, only whitespace may remain. -/
def ContStack : List JsonStackValue → List Nat → Prop
  | [], l => WsList l
  | .Array _ :: s, l => ∃ b rest, l = b ++ rest ∧ G .arrTail b ∧ ContStack s rest
  | .Object ks _ :: s, l => ∃ b rest, l = b ++ rest ∧ G (.objTail ks) b ∧ ContStack s rest

/-- The nonterminal describing the bytes that complete the top frame, as a function
of the current expectation mask (defined on the masks that can actually occur with
that frame shape, see `StateOK`). -/
def stateNT (e : Nat) (f : JsonStackValue) : NT :=
  match f with
  | .Array _ =>
    if e = 0x11 then .afterArrOpen else if e = 0x01 then .arrValue else .arrTail
  | .Object ks _ =>
    if e = 0x22 then .objOpenTail ks
    else if e = 0x02 then .member ks
    else if e = 0x08 then .postKey ks
    else if e = 0x01 then .postColon ks
    else .objTail ks

/-- The suffixes accepted from a verifier state: with an empty stack, a whitespace
run or a whole document; with an open frame, bytes completing that frame and then
the rest of the stack. -/
def ContSpec (e : Nat) (s : List JsonStackValue) (l : List Nat) : Prop :=
  match s with
  | [] => WsList l ∨ GDoc l
  | f :: s2 => ∃ b rest, l = b ++ rest ∧ G (stateNT e f) b ∧ ContStack s2 rest

/-- The expectation masks that can occur with each stack shape in a reachable
verifier state. -/
def StateOK (e : Nat) (s : List JsonStackValue) : Prop :=
  match s with
  | [] => e = 0x01
  | .Array _ :: _ => e = 0x11 ∨ e = 0x01 ∨ e = 0x14
  | .Object _ _ :: _ => e = 0x22 ∨ e = 0x02 ∨ e = 0x08 ∨ e = 0x01 ∨ e = 0x24

/-- The completeness motive: what processing the bytes of each nonterminal does to
the verifier, for the expectation masks at which that nonterminal's bytes can be
consumed.  `postValue` restates the mask recomputation after the top frame closes. -/
def Gmot : NT → List Nat → Prop
  | .value, b => ∀ rest e s, (e = 0x01 ∨ e = 0x11) → SepFollows rest →
      verify_from (b ++ rest) e s = postValue s rest
  | .afterArrOpen, b => ∀ rest s i, SepFollows rest →
      verify_from (b ++ rest) 0x11 (.Array i :: s) = postValue s rest
  | .arrValue, b => ∀ rest e s i, (e = 0x01 ∨ e = 0x11) → SepFollows rest →
      verify_from (b ++ rest) e (.Array i :: s) = postValue s rest
  | .arrTail, b => ∀ rest s i, SepFollows rest →
      verify_from (b ++ rest) 0x14 (.Array i :: s) = postValue s rest
  | .objOpenTail ks, b => ∀ rest s ck, SepFollows rest →
      verify_from (b ++ rest) 0x22 (.Object ks ck :: s) = postValue s rest
  | .member ks, b => ∀ rest e s ck, (e = 0x02 ∨ e = 0x22) → SepFollows rest →
      verify_from (b ++ rest) e (.Object ks ck :: s) = postValue s rest
  | .postKey ks, b => ∀ rest s ck, SepFollows rest →
      verify_from (b ++ rest) 0x08 (.Object ks ck :: s) = postValue s rest
  | .postColon ks, b => ∀ rest s ck, SepFollows rest →
      verify_from (b ++ rest) 0x01 (.Object ks ck :: s) = postValue s rest
  | .objTail ks, b => ∀ rest s ck, SepFollows rest →
      verify_from (b ++ rest) 0x24 (.Object ks ck :: s) = postValue s rest

/-! ## The RFC 8259 grammar itself

Used to settle whether everything the RFC grammar accepts is accepted by the code.
Following the RFC's ABNF: a `char` of a string is an unescaped character (code
point 0x20-0x21, 0x23-0x5B or 0x5D-0x10FFFF, here in its UTF-8 encoding), one of
the eight single-character escapes, or a Unicode escape with four hex digits (the
RFC grammar places no pairing constraint on surrogate escape values), and object
member names carry no uniqueness constraint. -/

/-- Standard UTF-8 encoding of one code point (no overlong forms, no surrogates). -/
inductive Utf8Enc : Nat → List Nat → Prop where
  | one (c : Nat) : c < 0x80 → Utf8Enc c [c]
  | two (c : Nat) : 0x80 ≤ c → c < 0x800 → Utf8Enc c [0xC0 + c / 64, 0x80 + c % 64]
  | three (c : Nat) : 0x800 ≤ c → c ≤ 0xFFFF → ¬(0xD800 ≤ c ∧ c ≤ 0xDFFF) →
      Utf8Enc c [0xE0 + c / 4096, 0x80 + c / 64 % 64, 0x80 + c % 64]
  | four (c : Nat) : 0x10000 ≤ c → c ≤ 0x10FFFF →
      Utf8Enc c [0xF0 + c / 262144, 0x80 + c / 4096 % 64, 0x80 + c / 64 % 64, 0x80 + c % 64]

/-- RFC 8259 string `char`. -/
inductive RfcChar : List Nat → Prop where
  | unescaped (c : Nat) (bs : List Nat) : Utf8Enc c bs →
      (c = 0x20 ∨ c = 0x21 ∨ (0x23 ≤ c ∧ c ≤ 0x5B) ∨ (0x5D ≤ c ∧ c ≤ 0x10FFFF)) →
      RfcChar bs
  | esc (b : Nat) : b ∈ [0x22, 0x5C, 0x2F, 0x62, 0x66, 0x6E, 0x72, 0x74] →
      RfcChar [0x5C, b]
  | uniEsc (h1 h2 h3 h4 : Nat) : isHexDigitByte h1 = true → isHexDigitByte h2 = true →
      isHexDigitByte h3 = true → isHexDigitByte h4 = true →
      RfcChar [0x5C, 0x75, h1, h2, h3, h4]

/-- RFC 8259 string content. -/
inductive RfcChars : List Nat → Prop where
  | nil : RfcChars []
  | cons {b bs : List Nat} : RfcChar b → RfcChars bs → RfcChars (b ++ bs)

/-- RFC 8259 string token. -/
def RfcString (l : List Nat) : Prop :=
  ∃ inner, l = 0x22 :: (inner ++ [0x22]) ∧ RfcChars inner

/-- Nonterminals of the RFC 8259 value grammar, mirroring `NT` without key sets. -/
inductive RNT where
  | value
  | afterArrOpen
  | arrValue
  | arrTail
  | objOpenTail
  | member
  | postKey
  | postColon
  | objTail
  deriving DecidableEq

/-- The RFC 8259 value grammar over bytes (duplicate member names permitted). -/
inductive R : RNT → List Nat → Prop where
  | null : R .value [0x6E, 0x75, 0x6C, 0x6C]
  | tru : R .value [0x74, 0x72, 0x75, 0x65]
  | fal : R .value [0x66, 0x61, 0x6C, 0x73, 0x65]
  | num {n : List Nat} : NumberBytes n → R .value n
  | str {b : List Nat} : RfcString b → R .value b
  | arr {b : List Nat} : R .afterArrOpen b → R .value (0x5B :: b)
  | obj {b : List Nat} : R .objOpenTail b → R .value (0x7B :: b)
  | arrNil {w : List Nat} : WsList w → R .afterArrOpen (w ++ [0x5D])
  | arrFirst {b : List Nat} : R .arrValue b → R .afterArrOpen b
  | arrValueI {w v t : List Nat} : WsList w → R .value v → R .arrTail t →
      R .arrValue (w ++ v ++ t)
  | arrClose {w : List Nat} : WsList w → R .arrTail (w ++ [0x5D])
  | arrComma {w b : List Nat} : WsList w → R .arrValue b → R .arrTail (w ++ 0x2C :: b)
  | objNil {w : List Nat} : WsList w → R .objOpenTail (w ++ [0x7D])
  | objFirst {b : List Nat} : R .member b → R .objOpenTail b
  | memberI {w s b : List Nat} : WsList w → RfcString s → R .postKey b →
      R .member (w ++ s ++ b)
  | postKeyI {w b : List Nat} : WsList w → R .postColon b → R .postKey (w ++ 0x3A :: b)
  | postColonI {w v t : List Nat} : WsList w → R .value v → R .objTail t →
      R .postColon (w ++ v ++ t)
  | objClose {w : List Nat} : WsList w → R .objTail (w ++ [0x7D])
  | objComma {w b : List Nat} : WsList w → R .member b → R .objTail (w ++ 0x2C :: b)

/-- One complete RFC 8259 JSON text: whitespace, one value, whitespace. -/
def RfcDoc (l : List Nat) : Prop :=
  ∃ w1 v w2, l = w1 ++ v ++ w2 ∧ WsList w1 ∧ R .value v ∧ WsList w2

/-! ## Concrete inputs used by the claims -/

/-- Bytes of the text consisting of a brace-enclosed object with the two members
"a":0 and "a":0 (spelled identically). -/
def dupKeyBytes : List Nat :=
  [0x7B, 0x22, 0x61, 0x22, 0x3A, 0x30, 0x2C, 0x22, 0x61, 0x22, 0x3A, 0x30, 0x7D]

/-- Object with members "a":0 and "a":0. -/
def dupKeyEscBytes : List Nat :=
  [0x7B, 0x22, 0x61, 0x22, 0x3A, 0x30, 0x2C,
   0x22, 0x5C, 0x75, 0x30, 0x30, 0x36, 0x31, 0x22, 0x3A, 0x30, 0x7D]

/-- Object with members "/":0 and "\/":0. -/
def dupSlashBytes : List Nat :=
  [0x7B, 0x22, 0x2F, 0x22, 0x3A, 0x30, 0x2C, 0x22, 0x5C, 0x2F, 0x22, 0x3A, 0x30, 0x7D]

/-- Object with members "/":0 and "/":0. -/
def dupSlashEscBytes : List Nat :=
  [0x7B, 0x22, 0x2F, 0x22, 0x3A, 0x30, 0x2C,
   0x22, 0x5C, 0x75, 0x30, 0x30, 0x32, 0x46, 0x22, 0x3A, 0x30, 0x7D]

/-- Object with members "a":0 and a second key written as the overlong two-byte
UTF-8 form 0xC1 0xA1 of the letter a. -/
def overlongDupBytes : List Nat :=
  [0x7B, 0x22, 0x61, 0x22, 0x3A, 0x30, 0x2C, 0x22, 0xC1, 0xA1, 0x22, 0x3A, 0x30, 0x7D]

/-- Two empty objects in sequence. -/
def trailTwoObjBytes : List Nat := [0x7B, 0x7D, 0x7B, 0x7D]

/-- An empty object, a comma, an empty object. -/
def trailCommaBytes : List Nat := [0x7B, 0x7D, 0x2C, 0x7B, 0x7D]

/-- An empty object followed by the bareword true. -/
def trailTrueBytes : List Nat := [0x7B, 0x7D, 0x74, 0x72, 0x75, 0x65]

/-- An empty object followed by the digit 0. -/
def trailZeroBytes : List Nat := [0x7B, 0x7D, 0x30]

/-! ## Basic reader lemmas -/

theorem read_string_loop_cons_false (b : Nat) (rest : List Nat) (string : List JsonChar) :
    read_string_loop (b :: rest) false string =
      (if b = 0x22 then .ok (string, rest)
       else if b = 0x5C then read_string_loop rest true string
       else read_string_loop rest false (string ++ [.Byte b])) := rfl

theorem read_string_cons (b : Nat) (rest : List Nat) :
    read_string (b :: rest) =
      (if b = 0x22 then read_string_loop rest false []
       else .panic .readStringAssertFailed) := rfl

theorem skip_whitespace_length (l : List Nat) : (skip_whitespace l).length ≤ l.length := by
  simp only [skip_whitespace]
  induction l with
  | nil => simp
  | cons a t ih =>
    by_cases h : isWsByte a
    · rw [List.dropWhile_cons_of_pos h]; exact ih.trans (by simp)
    · rw [List.dropWhile_cons_of_neg h]

theorem skip_whitespace_ws_append (w l : List Nat) (h : WsList w) :
    skip_whitespace (w ++ l) = skip_whitespace l := by
  simp only [skip_whitespace]
  induction w with
  | nil => simp
  | cons a t ih =>
    simp only [List.cons_append]
    rw [List.dropWhile_cons_of_pos (by simpa using h a (by simp))]
    exact ih fun b hb => h b (by simp [hb])

theorem skip_whitespace_cons_not_ws (b : Nat) (l : List Nat) (h : isWsByte b = false) :
    skip_whitespace (b :: l) = b :: l := by
  simp only [skip_whitespace]
  rw [List.dropWhile_cons_of_neg (by simp [h])]

theorem skip_whitespace_ws_only (l : List Nat) (h : WsList l) : skip_whitespace l = [] :=
  List.dropWhile_eq_nil_iff.mpr h

theorem read_string_loop_length :
    ∀ (n : Nat) (l : List Nat), l.length ≤ n → ∀ esc acc s r,
      read_string_loop l esc acc = .ok (s, r) → r.length < l.length := by
  intro n
  induction n with
  | zero =>
    intro l hl esc acc s r h
    have : l = [] := List.length_eq_zero.mp (Nat.le_zero.mp hl)
    subst this
    simp [read_string_loop] at h
  | succ n ih =>
    intro l hl esc acc s r h
    cases l with
    | nil => simp [read_string_loop] at h
    | cons b rest =>
      have hrest : rest.length ≤ n := by simp at hl; omega
      cases esc with
      | true =>
        rw [read_string_loop.eq_def] at h
        dsimp only [] at h
        split_ifs at h with h75
        · split at h
          · rename_i c1 c2 c3 c4 rest4
            split_ifs at h
            have hlen : rest4.length + 4 ≤ n := by simp at hrest; omega
            have := ih rest4 (by omega) false _ _ _ h
            simp at hrest ⊢
            omega
          · cases h
        · cases hec : escape_char b with
          | none => rw [hec] at h; cases h
          | some ec =>
            rw [hec] at h
            simp only [Option.elim] at h
            have := ih rest hrest false _ _ _ h
            simp
            omega
      | false =>
        rw [read_string_loop_cons_false] at h
        split_ifs at h with h1 h2
        · injection h with hpair
          injection hpair with hs hr
          subst hr
          simp
        · have := ih rest hrest true _ _ _ h; simp; omega
        · have := ih rest hrest false _ _ _ h; simp; omega

theorem read_number_string_loop_le :
    ∀ (l : List Nat) (st : ParserState) (acc n r : List Nat),
      read_number_string_loop l st acc = .ok (n, r) → r.length ≤ l.length := by
  intro l
  induction l with
  | nil =>
    intro st acc n r h
    cases st <;> rw [read_number_string_loop.eq_def] at h <;> dsimp only [] at h <;> first
      | (injection h with hpair; injection hpair with hs hr; subst hr; exact le_refl _)
      | simp at h
  | cons b rest ih =>
    intro st acc n r h
    cases st <;> rw [read_number_string_loop.eq_def] at h <;> dsimp only [] at h <;>
      split_ifs at h <;> first
      | exact (ih _ _ _ _ h).trans (by simp)
      | (injection h with hpair; injection hpair with hs hr; subst hr; exact le_refl _)
      | simp at h

theorem read_next_token_consumes (l : List Nat) (t : JsonToken) (r : List Nat)
    (h : read_next_token l = .ok (some t, r)) : r.length < l.length := by
  have hm := skip_whitespace_length l
  unfold read_next_token at h
  split at h
  · simp at h
  · rename_i b rest heq
    rw [heq] at hm
    simp only [List.length_cons] at hm
    split at h
    · injection h with hpair
      injection hpair with ht hr
      subst hr
      omega
    · split_ifs at h with h22 hnum
      · split at h
        · rename_i s2 r2 hrs
          injection h with hpair
          injection hpair with ht hr
          subst hr
          rw [read_string_cons, if_pos h22] at hrs
          have := read_string_loop_length rest.length rest (le_refl _) false [] s2 r2 hrs
          omega
        · cases h
        · cases h
      · split at h
        · rename_i n2 r2 hrn
          injection h with hpair
          injection hpair with ht hr
          subst hr
          unfold read_number_string at hrn
          simp only [read_number_string_loop] at hrn
          split_ifs at hrn
          · have := read_number_string_loop_le rest _ _ _ _ hrn
            omega
          · have := read_number_string_loop_le rest _ _ _ _ hrn
            omega
          · have := read_number_string_loop_le rest _ _ _ _ hrn
            omega
        · cases h
        · cases h
      · split at h
        · rename_i b1 b2 b3 b4 tail heq2
          have hlen : tail.length + 4 = rest.length + 1 := by
            have := congrArg List.length heq2
            simp at this
            omega
          split_ifs at h
          · injection h with hpair
            injection hpair with ht hr
            subst hr
            omega
          · injection h with hpair
            injection hpair with ht hr
            subst hr
            omega
          · split at h
            · cases h
            · rename_i c tail2
              split_ifs at h
              injection h with hpair
              injection hpair with ht hr
              subst hr
              simp at hlen
              omega
        · cases h

/-! ## The loop: congruence, fuel irrelevance, step equation -/

theorem verify_step_congr (k1 k2 : List Nat → Nat → List JsonStackValue → VerifyOutcome)
    (l : List Nat) (e : Nat) (s : List JsonStackValue)
    (h : ∀ r e2 s2, r.length < l.length → k1 r e2 s2 = k2 r e2 s2) :
    verify_step k1 l e s = verify_step k2 l e s := by
  unfold verify_step
  cases hrt : read_next_token l with
  | err e2 => rfl
  | panic p => rfl
  | ok pr =>
    obtain ⟨otok, r⟩ := pr
    cases otok with
    | none => rfl
    | some tok =>
      have hr := read_next_token_consumes l tok r hrt
      have h2 : ∀ e2 s2, k1 r e2 s2 = k2 r e2 s2 := fun e2 s2 => h r e2 s2 hr
      cases tok <;> first
        | rfl
        | simp only [h2]

theorem verify_loop_irrel :
    ∀ (f1 f2 : Nat) (l : List Nat) (e : Nat) (s : List JsonStackValue),
      l.length < f1 → l.length < f2 → verify_loop f1 l e s = verify_loop f2 l e s := by
  intro f1
  induction f1 with
  | zero => intro f2 l e s h1 h2; omega
  | succ fa ih =>
    intro f2 l e s h1 h2
    cases f2 with
    | zero => omega
    | succ fb =>
      simp only [verify_loop]
      apply verify_step_congr
      intro r e2 s2 hr
      exact ih fb r e2 s2 (by omega) (by omega)

theorem verify_from_step (l : List Nat) (e : Nat) (s : List JsonStackValue) :
    verify_from l e s = verify_step verify_from l e s := by
  unfold verify_from
  conv =>
    lhs
    simp only [verify_loop]
  apply verify_step_congr
  intro r e2 s2 hr
  exact verify_loop_irrel l.length (r.length + 1) r e2 s2 hr (by omega)

/-! ## The codec loop: congruence, fuel irrelevance, step equation -/

theorem interpret_step_congr (k1 k2 : List JsonChar → Res (List Nat)) (cs : List JsonChar)
    (h : ∀ cs2 : List JsonChar, cs2.length < cs.length → k1 cs2 = k2 cs2) :
    interpret_string_step k1 cs = interpret_string_step k2 cs := by
  unfold interpret_string_step
  cases cs with
  | nil => rfl
  | cons c rest =>
    cases c with
    | Byte b =>
      cases rest with
      | nil => dsimp only []; rw [h [] (by simp)]
      | cons c2 rest2 =>
        cases rest2 with
        | nil =>
          dsimp only []
          simp only [h [c2] (by simp only [List.length_cons, List.length_nil]; omega),
            h [] (by simp only [List.length_cons, List.length_nil]; omega)]
        | cons c3 rest3 =>
          cases rest3 with
          | nil =>
            dsimp only []
            simp only [h [c2, c3] (by simp only [List.length_cons, List.length_nil]; omega),
              h [c3] (by simp only [List.length_cons, List.length_nil]; omega),
              h [] (by simp only [List.length_cons, List.length_nil]; omega)]
          | cons c4 rest4 =>
            dsimp only []
            simp only
              [h (c2 :: c3 :: c4 :: rest4) (by simp only [List.length_cons]; omega),
              h (c3 :: c4 :: rest4) (by simp only [List.length_cons]; omega),
              h (c4 :: rest4) (by simp only [List.length_cons]; omega),
              h rest4 (by simp only [List.length_cons]; omega)]
    | EscapedQuote => dsimp only []; rw [h rest (by simp)]
    | EscapedBackslash => dsimp only []; rw [h rest (by simp)]
    | EscapedSlash => dsimp only []; rw [h rest (by simp)]
    | EscapedBackspace => dsimp only []; rw [h rest (by simp)]
    | EscapedFormFeed => dsimp only []; rw [h rest (by simp)]
    | EscapedLineFeed => dsimp only []; rw [h rest (by simp)]
    | EscapedCarriageReturn => dsimp only []; rw [h rest (by simp)]
    | EscapedTab => dsimp only []; rw [h rest (by simp)]
    | UnicodeEscape u =>
      cases rest with
      | nil => dsimp only []; rw [h [] (by simp)]
      | cons c2 rest2 =>
        have e1 := h (c2 :: rest2) (by simp only [List.length_cons]; omega)
        have e2 := h rest2 (by simp only [List.length_cons]; omega)
        cases c2 <;> dsimp only [] <;> simp only [e1, e2]

theorem interpret_loop_irrel :
    ∀ (f1 f2 : Nat) (cs : List JsonChar), cs.length < f1 → cs.length < f2 →
      interpret_string_loop f1 cs = interpret_string_loop f2 cs := by
  intro f1
  induction f1 with
  | zero => intro f2 cs h1 h2; omega
  | succ fa ih =>
    intro f2 cs h1 h2
    cases f2 with
    | zero => omega
    | succ fb =>
      simp only [interpret_string_loop]
      apply interpret_step_congr
      intro cs2 hlt
      exact ih fb cs2 (by omega) (by omega)

theorem interpret_string_unfold (cs : List JsonChar) :
    interpret_string cs = interpret_string_step interpret_string cs := by
  unfold interpret_string
  conv =>
    lhs
    simp only [interpret_string_loop]
  apply interpret_step_congr
  intro cs2 hlt
  exact interpret_loop_irrel cs.length (cs2.length + 1) cs2 hlt (by omega)

theorem res_cons_panic (v : Nat) (x : Res (List Nat)) (p : PanicSite)
    (h : res_cons v x = .panic p) : x = .panic p := by
  cases x with
  | ok t => simp [res_cons] at h
  | err e => simp [res_cons] at h
  | panic q =>
    simp only [res_cons] at h
    exact h

theorem res_bind_byte_panic (x : Res Nat) (f : Nat → Res (List Nat)) (p : PanicSite)
    (h : res_bind_byte x f = .panic p) :
    x = .panic p ∨ ∃ b, x = .ok b ∧ f b = .panic p := by
  cases x with
  | ok b => right; exact ⟨b, rfl, by simpa [res_bind_byte] using h⟩
  | err e => simp [res_bind_byte] at h
  | panic q => left; simpa [res_bind_byte] using h

theorem get_next_json_char_byte_no_panic (prev : List Nat) (oc : Option JsonChar)
    (p : PanicSite) : get_next_json_char_byte prev oc ≠ .panic p := by
  intro h
  unfold get_next_json_char_byte at h
  rcases oc with _ | c
  · cases h
  · cases c <;> revert h <;> dsimp only [] <;> (try split_ifs) <;> intro h <;> cases h

theorem interpret_string_no_bad_panic :
    ∀ (n : Nat) (cs : List JsonChar), cs.length ≤ n → ∀ p,
      interpret_string cs = .panic p → p = .charFromU32Unwrap := by
  intro n
  induction n with
  | zero =>
    intro cs hl p h
    have : cs = [] := List.length_eq_zero.mp (Nat.le_zero.mp hl)
    subst this
    rw [interpret_string_unfold] at h
    cases h
  | succ n ih =>
    intro cs hl p h
    rw [interpret_string_unfold] at h
    unfold interpret_string_step at h
    cases cs with
    | nil => cases h
    | cons c rest =>
      have hrest : rest.length ≤ n := by simp at hl; omega
      cases c with
      | Byte b =>
        dsimp only [] at h
        split_ifs at h with h80 hC0 hE0 hF0
        · exact ih rest hrest p (res_cons_panic _ _ _ h)
        · split at h
          · cases h
          · rename_i c2 rest2
            rcases res_bind_byte_panic _ _ _ h with hx | ⟨b2, hb2, hf⟩
            · exact absurd hx (get_next_json_char_byte_no_panic _ _ _)
            · cases hcv : char_from_u32 (((b &&& 0x1F) <<< 6) ||| (b2 &&& 0x3F)) with
              | none => rw [hcv] at hf; cases hf
              | some cv =>
                rw [hcv] at hf
                simp only [Option.elim] at hf
                exact ih rest2 (by simp at hrest; omega) p (res_cons_panic _ _ _ hf)
        · split at h
          · cases h
          · rename_i c2 rest2
            rcases res_bind_byte_panic _ _ _ h with hx | ⟨b2, hb2, hf⟩
            · exact absurd hx (get_next_json_char_byte_no_panic _ _ _)
            · split at hf
              · cases hf
              · rename_i c3 rest3
                rcases res_bind_byte_panic _ _ _ hf with hx2 | ⟨b3, hb3, hf2⟩
                · exact absurd hx2 (get_next_json_char_byte_no_panic _ _ _)
                · cases hcv : char_from_u32
                      (((b &&& 0x0F) <<< 12) ||| ((b2 &&& 0x3F) <<< 6) ||| (b3 &&& 0x3F)) with
                  | none => rw [hcv] at hf2; cases hf2
                  | some cv =>
                    rw [hcv] at hf2
                    simp only [Option.elim] at hf2
                    exact ih rest3 (by simp at hrest; omega) p (res_cons_panic _ _ _ hf2)
        · split at h
          · cases h
          · rename_i c2 rest2
            rcases res_bind_byte_panic _ _ _ h with hx | ⟨b2, hb2, hf⟩
            · exact absurd hx (get_next_json_char_byte_no_panic _ _ _)
            · split at hf
              · cases hf
              · rename_i c3 rest3
                rcases res_bind_byte_panic _ _ _ hf with hx2 | ⟨b3, hb3, hf2⟩
                · exact absurd hx2 (get_next_json_char_byte_no_panic _ _ _)
                · split at hf2
                  · cases hf2
                  · rename_i c4 rest4
                    rcases res_bind_byte_panic _ _ _ hf2 with hx3 | ⟨b4, hb4, hf3⟩
                    · exact absurd hx3 (get_next_json_char_byte_no_panic _ _ _)
                    · cases hcv : char_from_u32
                          (((b &&& 0x07) <<< 18) ||| ((b2 &&& 0x3F) <<< 12) |||
                            ((b3 &&& 0x3F) <<< 6) ||| (b4 &&& 0x3F)) with
                      | none => rw [hcv] at hf3; cases hf3
                      | some cv =>
                        rw [hcv] at hf3
                        simp only [Option.elim] at hf3
                        exact ih rest4 (by simp at hrest; omega) p
                          (res_cons_panic _ _ _ hf3)
      | EscapedQuote =>
        dsimp only [] at h
        exact ih rest hrest p (res_cons_panic _ _ _ h)
      | EscapedBackslash =>
        dsimp only [] at h
        exact ih rest hrest p (res_cons_panic _ _ _ h)
      | EscapedSlash =>
        dsimp only [] at h
        exact ih rest hrest p (res_cons_panic _ _ _ h)
      | EscapedBackspace =>
        dsimp only [] at h
        exact ih rest hrest p (res_cons_panic _ _ _ h)
      | EscapedFormFeed =>
        dsimp only [] at h
        exact ih rest hrest p (res_cons_panic _ _ _ h)
      | EscapedLineFeed =>
        dsimp only [] at h
        exact ih rest hrest p (res_cons_panic _ _ _ h)
      | EscapedCarriageReturn =>
        dsimp only [] at h
        exact ih rest hrest p (res_cons_panic _ _ _ h)
      | EscapedTab =>
        dsimp only [] at h
        exact ih rest hrest p (res_cons_panic _ _ _ h)
      | UnicodeEscape u =>
        dsimp only [] at h
        split_ifs at h with hhi hlo
        · split at h
          · rename_i u2 rest2
            split_ifs at h with hguard
            · cases hcv : char_from_u32 (0x10000 + ((u - 0xD800) <<< 10) + (u2 - 0xDC00)) with
              | none =>
                rw [hcv] at h
                simp only [Option.elim, Res.panic.injEq] at h
                exact h.symm
              | some cv =>
                rw [hcv] at h
                simp only [Option.elim] at h
                exact ih rest2 (by simp at hrest; omega) p (res_cons_panic _ _ _ h)
          · cases h
          · cases h
        · exact ih rest hrest p (res_cons_panic _ _ _ h)

theorem read_string_loop_no_panic :
    ∀ (n : Nat) (l : List Nat), l.length ≤ n → ∀ esc acc p,
      read_string_loop l esc acc ≠ .panic p := by
  intro n
  induction n with
  | zero =>
    intro l hl esc acc p h
    have : l = [] := List.length_eq_zero.mp (Nat.le_zero.mp hl)
    subst this
    cases h
  | succ n ih =>
    intro l hl esc acc p h
    cases l with
    | nil => cases h
    | cons b rest =>
      have hrest : rest.length ≤ n := by simp at hl; omega
      cases esc with
      | true =>
        rw [read_string_loop.eq_def] at h
        dsimp only [] at h
        split_ifs at h with h75
        · split at h
          · rename_i c1 c2 c3 c4 rest4
            split_ifs at h
            exact ih rest4 (by simp at hrest; omega) false _ p h
          · cases h
        · cases hec : escape_char b with
          | none => rw [hec] at h; cases h
          | some ec =>
            rw [hec] at h
            simp only [Option.elim] at h
            exact ih rest hrest false _ p h
      | false =>
        rw [read_string_loop_cons_false] at h
        split_ifs at h with h1 h2
        · exact ih rest hrest true _ p h
        · exact ih rest hrest false _ p h

theorem read_number_string_loop_no_panic :
    ∀ (l : List Nat) (st : ParserState) (acc : List Nat) (p : PanicSite),
      read_number_string_loop l st acc ≠ .panic p := by
  intro l
  induction l with
  | nil =>
    intro st acc p h
    cases st <;> rw [read_number_string_loop.eq_def] at h <;> dsimp only [] at h <;> cases h
  | cons b rest ih =>
    intro st acc p h
    cases st <;> rw [read_number_string_loop.eq_def] at h <;> dsimp only [] at h <;>
      split_ifs at h <;> first
      | exact ih _ _ _ h
      | cases h

theorem read_next_token_no_panic (l : List Nat) (p : PanicSite) :
    read_next_token l ≠ .panic p := by
  intro h
  unfold read_next_token at h
  split at h
  · cases h
  · rename_i b rest heq
    split at h
    · cases h
    · split_ifs at h with h22 hnum
      · split at h
        · cases h
        · cases h
        · rename_i p2 hrs
          rw [read_string_cons, if_pos h22] at hrs
          exact read_string_loop_no_panic rest.length rest (le_refl _) false [] p2 hrs
      · split at h
        · cases h
        · cases h
        · rename_i p2 hrn
          exact read_number_string_loop_no_panic _ _ _ _ hrn
      · split at h
        · rename_i b1 b2 b3 b4 tail heq2
          split_ifs at h
          split at h
          · cases h
          · rename_i c tail2
            split_ifs at h
        · cases h

/-! ## Claim C4: the verifier's mismatch branches are unreachable -/

theorem stateOK_nil_elim (e : Nat) (h : StateOK e []) : e = 0x01 := h

theorem stateOK_array_elim (e : Nat) (i : Nat) (s2 : List JsonStackValue)
    (h : StateOK e (.Array i :: s2)) : e = 0x11 ∨ e = 0x01 ∨ e = 0x14 := h

theorem stateOK_object_elim (e : Nat) (ks : List (List Nat)) (ck : Option (List Nat))
    (s2 : List JsonStackValue) (h : StateOK e (.Object ks ck :: s2)) :
    e = 0x22 ∨ e = 0x02 ∨ e = 0x08 ∨ e = 0x01 ∨ e = 0x24 := h

theorem stateOK_array_intro (e : Nat) (i : Nat) (s2 : List JsonStackValue)
    (h : e = 0x11 ∨ e = 0x01 ∨ e = 0x14) : StateOK e (.Array i :: s2) := h

theorem stateOK_object_intro (e : Nat) (ks : List (List Nat)) (ck : Option (List Nat))
    (s2 : List JsonStackValue) (h : e = 0x22 ∨ e = 0x02 ∨ e = 0x08 ∨ e = 0x01 ∨ e = 0x24) :
    StateOK e (.Object ks ck :: s2) := h

theorem verify_loop_panic_sites :
    ∀ (fuel : Nat) (l : List Nat) (e : Nat) (s : List JsonStackValue), StateOK e s →
      ∀ p, verify_loop fuel l e s = .panicked p →
        p = .charFromU32Unwrap ∨ p = .fuelExhausted := by
  intro fuel
  induction fuel with
  | zero =>
    intro l e s hok p h
    simp only [verify_loop] at h
    injection h with hp
    exact Or.inr hp.symm
  | succ f ih =>
    intro l e s hok p h
    simp only [verify_loop] at h
    unfold verify_step at h
    split at h
    · cases h
    · rename_i p2 hrt
      exact absurd hrt (read_next_token_no_panic l p2)
    · cases h
    · rename_i tok r hrt
      cases tok with
      | String s2 =>
        dsimp only [] at h
        split at h
        · cases h
        · rename_i p2 hip
          have hp2 := interpret_string_no_bad_panic s2.length s2 (le_refl _) p2 hip
          subst hp2
          injection h with hp
          exact Or.inl hp.symm
        · rename_i ps hip
          split_ifs at h with hkey hval
          · rcases s with _ | ⟨f2, s3⟩
            · dsimp only [] at h
              have he := stateOK_nil_elim e hok
              subst he
              exact absurd hkey (by decide)
            · cases f2 with
              | Array i =>
                dsimp only [] at h
                rcases stateOK_array_elim e _ _ hok with rfl | rfl | rfl <;>
                  exact absurd hkey (by decide)
              | Object ks ck =>
                dsimp only [] at h
                split_ifs at h with hmem
                exact ih r _ _ (stateOK_object_intro _ _ _ _ (by decide)) p h
          · rcases s with _ | ⟨f2, s3⟩
            · dsimp only [] at h
              cases h
            · cases f2 with
              | Array i =>
                dsimp only [] at h
                exact ih r _ _ (stateOK_array_intro _ _ _ (by decide)) p h
              | Object ks ck =>
                dsimp only [] at h
                exact ih r _ _ (stateOK_object_intro _ _ _ _ (by decide)) p h
      | Null =>
        dsimp only [] at h
        split_ifs at h with hval
        rcases s with _ | ⟨f2, s3⟩
        · dsimp only [] at h
          cases h
        · cases f2 with
          | Array i =>
            dsimp only [] at h
            exact ih r _ _ (stateOK_array_intro _ _ _ (by decide)) p h
          | Object ks ck =>
            dsimp only [] at h
            exact ih r _ _ (stateOK_object_intro _ _ _ _ (by decide)) p h
      | True =>
        dsimp only [] at h
        split_ifs at h with hval
        rcases s with _ | ⟨f2, s3⟩
        · dsimp only [] at h
          cases h
        · cases f2 with
          | Array i =>
            dsimp only [] at h
            exact ih r _ _ (stateOK_array_intro _ _ _ (by decide)) p h
          | Object ks ck =>
            dsimp only [] at h
            exact ih r _ _ (stateOK_object_intro _ _ _ _ (by decide)) p h
      | False =>
        dsimp only [] at h
        split_ifs at h with hval
        rcases s with _ | ⟨f2, s3⟩
        · dsimp only [] at h
          cases h
        · cases f2 with
          | Array i =>
            dsimp only [] at h
            exact ih r _ _ (stateOK_array_intro _ _ _ (by decide)) p h
          | Object ks ck =>
            dsimp only [] at h
            exact ih r _ _ (stateOK_object_intro _ _ _ _ (by decide)) p h
      | Number n2 =>
        dsimp only [] at h
        split_ifs at h with hval
        rcases s with _ | ⟨f2, s3⟩
        · dsimp only [] at h
          cases h
        · cases f2 with
          | Array i =>
            dsimp only [] at h
            exact ih r _ _ (stateOK_array_intro _ _ _ (by decide)) p h
          | Object ks ck =>
            dsimp only [] at h
            exact ih r _ _ (stateOK_object_intro _ _ _ _ (by decide)) p h
      | Colon =>
        dsimp only [] at h
        split_ifs at h with hcol
        rcases s with _ | ⟨f2, s3⟩
        · dsimp only [] at h
          have he := stateOK_nil_elim e hok
          subst he
          exact absurd hcol (by decide)
        · cases f2 with
          | Array i =>
            dsimp only [] at h
            rcases stateOK_array_elim e _ _ hok with rfl | rfl | rfl <;>
              exact absurd hcol (by decide)
          | Object ks ck =>
            dsimp only [] at h
            exact ih r _ _ (stateOK_object_intro _ _ _ _ (by decide)) p h
      | Comma =>
        dsimp only [] at h
        split_ifs at h with hcomma
        rcases s with _ | ⟨f2, s3⟩
        · dsimp only [] at h
          have he := stateOK_nil_elim e hok
          subst he
          exact absurd hcomma (by decide)
        · cases f2 with
          | Array i =>
            dsimp only [] at h
            exact ih r _ _ (stateOK_array_intro _ _ _ (by decide)) p h
          | Object ks ck =>
            dsimp only [] at h
            exact ih r _ _ (stateOK_object_intro _ _ _ _ (by decide)) p h
      | OpeningBracket =>
        dsimp only [] at h
        split_ifs at h with hval
        exact ih r _ _ (stateOK_array_intro _ _ _ (by decide)) p h
      | ClosingBracket =>
        dsimp only [] at h
        split_ifs at h with hcb
        rcases s with _ | ⟨f2, s3⟩
        · dsimp only [] at h
          have he := stateOK_nil_elim e hok
          subst he
          exact absurd hcb (by decide)
        · cases f2 with
          | Array i =>
            dsimp only [] at h
            rcases s3 with _ | ⟨f3, s4⟩
            · dsimp only [] at h
              cases h
            · cases f3 with
              | Array i2 =>
                dsimp only [] at h
                exact ih r _ _ (stateOK_array_intro _ _ _ (by decide)) p h
              | Object ks2 ck2 =>
                dsimp only [] at h
                exact ih r _ _ (stateOK_object_intro _ _ _ _ (by decide)) p h
          | Object ks ck =>
            dsimp only [] at h
            rcases stateOK_object_elim e _ _ _ hok with rfl | rfl | rfl | rfl | rfl <;>
              exact absurd hcb (by decide)
      | OpeningBrace =>
        dsimp only [] at h
        split_ifs at h with hval
        exact ih r _ _ (stateOK_object_intro _ _ _ _ (by decide)) p h
      | ClosingBrace =>
        dsimp only [] at h
        split_ifs at h with hcb
        rcases s with _ | ⟨f2, s3⟩
        · dsimp only [] at h
          have he := stateOK_nil_elim e hok
          subst he
          exact absurd hcb (by decide)
        · cases f2 with
          | Array i =>
            dsimp only [] at h
            rcases stateOK_array_elim e _ _ hok with rfl | rfl | rfl <;>
              exact absurd hcb (by decide)
          | Object ks ck =>
            dsimp only [] at h
            rcases s3 with _ | ⟨f3, s4⟩
            · dsimp only [] at h
              cases h
            · cases f3 with
              | Array i2 =>
                dsimp only [] at h
                exact ih r _ _ (stateOK_array_intro _ _ _ (by decide)) p h
              | Object ks2 ck2 =>
                dsimp only [] at h
                exact ih r _ _ (stateOK_object_intro _ _ _ _ (by decide)) p h

/-- C4: in every state reachable from the initial state, a closing bracket is only
ever accepted with an array frame on top, a closing brace and a colon and a key
string only with an object frame on top, and a comma only with a nonempty stack,
so the five internal-mismatch panic branches of verify are unreachable, for every
input. -/
theorem C4_mismatch_unreachable (l : List Nat) (p : PanicSite)
    (hp : p = .keyTopMismatch ∨ p = .colonTopMismatch ∨ p = .commaTopMismatch ∨
      p = .closingBracketPopMismatch ∨ p = .closingBracePopMismatch) :
    verify l ≠ .panicked p := by
  intro h
  have hsites := verify_loop_panic_sites (l.length + 1) l ParserExpects.VALUE [] rfl p h
  rcases hp with rfl | rfl | rfl | rfl | rfl <;> rcases hsites with h1 | h1 <;> cases h1

/-- Witness for C4: the key-mismatch site is never hit on the empty object input. -/
theorem C4_mismatch_unreachable_witness :
    verify [0x7B, 0x7D] ≠ .panicked .keyTopMismatch :=
  C4_mismatch_unreachable [0x7B, 0x7D] .keyTopMismatch (Or.inl rfl)

/-! ## Claim C2: surrogate handling of the string codec -/

/-- C2, behaviour of the code at the failing inputs.  The source guard at
tokenizer.rs:513 tests the high surrogate `u`, not the following escape value
`u2`, against 0xDFFF, so a high surrogate followed by an escape value of at least
0xDC00 is always combined: the pair D800 E000 decodes successfully to the scalar
value 0x10400 instead of raising InvalidUtf16SurrogateSequence, and the pair DBFF
E000 panics in `char::from_u32(...).unwrap()`.  A well-formed pair, a lone high
surrogate, and a lone low surrogate behave as the claim says. -/
theorem C2_surrogate_eval :
    interpret_string [.UnicodeEscape 0xD800, .UnicodeEscape 0xE000] = .ok [0x10400] ∧
    interpret_string [.UnicodeEscape 0xDBFF, .UnicodeEscape 0xE000] =
      .panic .charFromU32Unwrap ∧
    interpret_string [.UnicodeEscape 0xD801, .UnicodeEscape 0xDC37] = .ok [0x10437] ∧
    interpret_string [.UnicodeEscape 0xD800] =
      .err (.InvalidUtf16SurrogateSequence [.UnicodeEscape 0xD800]) ∧
    interpret_string [.UnicodeEscape 0xDC00] =
      .err (.InvalidUtf16SurrogateSequence [.UnicodeEscape 0xDC00]) ∧
    interpret_string [.UnicodeEscape 0xD800, .Byte 0x61] =
      .err (.InvalidUtf16SurrogateSequence [.UnicodeEscape 0xD800, .Byte 0x61]) := by
  decide

/-! ## Claim C5: the number reader on the spec's example inputs -/

/-- C5: the number examples of the spec.  The inputs 0, -0, 0.5, 1e10, -1.5E-3 each
lex to a single Number token carrying exactly their bytes with nothing left; on 01
the Number token carries only the first digit (the second remains unconsumed); 1.
and 1e fail in a mandatory-byte state with the end-of-input error; .5 is not
dispatched to number reading (it falls into the bareword branch, which fails
reading four bytes). -/
theorem C5_number_examples :
    read_next_token [0x30] = .ok (some (.Number [0x30]), []) ∧
    read_next_token [0x2D, 0x30] = .ok (some (.Number [0x2D, 0x30]), []) ∧
    read_next_token [0x30, 0x2E, 0x35] = .ok (some (.Number [0x30, 0x2E, 0x35]), []) ∧
    read_next_token [0x31, 0x65, 0x31, 0x30] =
      .ok (some (.Number [0x31, 0x65, 0x31, 0x30]), []) ∧
    read_next_token [0x2D, 0x31, 0x2E, 0x35, 0x45, 0x2D, 0x33] =
      .ok (some (.Number [0x2D, 0x31, 0x2E, 0x35, 0x45, 0x2D, 0x33]), []) ∧
    read_next_token [0x30, 0x31] = .ok (some (.Number [0x30]), [0x31]) ∧
    read_number_string [0x31, 0x2E] = .err .Io_UnexpectedEof ∧
    read_number_string [0x31, 0x65] = .err .Io_UnexpectedEof ∧
    read_next_token [0x2E, 0x35] = .err .Io_UnexpectedEof := by
  decide

/-! ## Claim C3: duplicate keys are compared by decoded text -/

/-- C3: duplicate-key detection is spelling-insensitive.  First, the general step:
whenever the verifier expects a key, the next token is a string, and its decoded
text is already in the top object frame's key set, the run returns false.  Second,
the four concrete documents of the spec (identical spellings, and the pairs a
versus its u-escape and the slash versus its two escape spellings) all verify
false. -/
theorem C3_duplicate_keys :
    (∀ (l : List Nat) (e : Nat) (ks : List (List Nat)) (ck : Option (List Nat))
      (s2 : List JsonStackValue) (cs : List JsonChar) (t : List Nat) (r : List Nat),
      read_next_token l = .ok (some (.String cs), r) →
      interpret_string cs = .ok t →
      ParserExpects.contains e ParserExpects.KEY = true →
      t ∈ ks →
      verify_from l e (.Object ks ck :: s2) = .result false) ∧
    verify dupKeyBytes = .result false ∧
    verify dupKeyEscBytes = .result false ∧
    verify dupSlashBytes = .result false ∧
    verify dupSlashEscBytes = .result false := by
  refine ⟨?_, by decide, by decide, by decide, by decide⟩
  intro l e ks ck s2 cs t r h1 h2 h3 h4
  simp [verify_from, verify_loop, verify_step, h1, h2, h3, h4]

/-- Witness for C3: the general step applied at the second key of the duplicate
document, where the decoded text of the key (the letter a) is already known. -/
theorem C3_duplicate_keys_witness :
    verify_from [0x22, 0x61, 0x22, 0x3A, 0x30, 0x7D] 0x02
      (.Object [[0x61]] none :: []) = .result false :=
  C3_duplicate_keys.1 [0x22, 0x61, 0x22, 0x3A, 0x30, 0x7D] 0x02 [[0x61]] none []
    [.Byte 0x61] [0x61] [0x3A, 0x30, 0x7D] (by decide) (by decide) (by decide) (by decide)

/-! ## Claim C6: the end-of-loop checks -/

/-- C6: after the token loop, true requires an empty stack and, after skipping
whitespace, exhausted input; and the four trailing-content documents of the spec
all verify false. -/
theorem C6_trailing :
    (∀ (s : List JsonStackValue) (l : List Nat),
      verify_finish s l = true → s = [] ∧ skip_whitespace l = []) ∧
    verify trailTwoObjBytes = .result false ∧
    verify trailCommaBytes = .result false ∧
    verify trailTrueBytes = .result false ∧
    verify trailZeroBytes = .result false := by
  refine ⟨?_, by decide, by decide, by decide, by decide⟩
  intro s l h
  unfold verify_finish at h
  by_cases hs : 0 < s.length
  · simp [hs] at h
  · have hs2 : s = [] := by
      cases s with
      | nil => rfl
      | cons a t => simp at hs
    subst hs2
    refine ⟨rfl, ?_⟩
    simp at h
    cases hh : (skip_whitespace l).head? with
    | none => exact List.head?_eq_none_iff.mp hh
    | some b => rw [hh] at h; simp at h

/-- Witness for C6: the finish check at the empty stack and empty remainder. -/
theorem C6_trailing_witness : ([] : List JsonStackValue) = [] ∧ skip_whitespace [] = [] :=
  C6_trailing.1 [] [] (by decide)

/-! ## Claim C9: whitespace-only inputs verify true -/

/-- Whitespace-only inputs verify to true (shared lemma). -/
theorem verify_ws_true (l : List Nat) (h : WsList l) : verify l = .result true := by
  have hskip : skip_whitespace l = [] := by
    simp only [skip_whitespace]
    exact List.dropWhile_eq_nil_iff.mpr h
  simp only [verify, verify_from, verify_loop, verify_step, read_next_token, hskip]
  rfl

/-- C9: on any input consisting only of whitespace bytes, including the empty
input, verify returns true: the loop's first token read hits end of input with the
initial empty stack, and the finish checks pass. -/
theorem C9_ws_only (l : List Nat) (h : WsList l) : verify l = .result true :=
  verify_ws_true l h

/-- Witness for C9: a space, tab, line feed, carriage return input, and the empty input. -/
theorem C9_ws_only_witness :
    verify [0x20, 0x09, 0x0A, 0x0D] = .result true ∧ verify [] = .result true :=
  ⟨C9_ws_only [0x20, 0x09, 0x0A, 0x0D] (by intro b hb; fin_cases hb <;> rfl),
   C9_ws_only [] (by intro b hb; cases hb)⟩

/-! ## Claim C10: overlong UTF-8 forms are accepted and decode like the short form -/

/-- C10: for every byte below 0x80, the overlong two-byte sequence built from it
decodes successfully to the same one-character text as the byte itself, and a key
spelled in the overlong form is therefore detected as a duplicate of the plainly
spelled key (the concrete document with keys a and 0xC1 0xA1 verifies false). -/
theorem C10_overlong :
    (∀ b, b < 0x80 →
      interpret_string [.Byte (0xC0 ||| (b >>> 6)), .Byte (0x80 ||| (b &&& 0x3F))] = .ok [b] ∧
      interpret_string [.Byte b] = .ok [b]) ∧
    verify overlongDupBytes = .result false := by
  constructor
  · decide
  · decide

/-- Witness for C10: the letter a, overlong form 0xC1 0xA1. -/
theorem C10_overlong_witness :
    interpret_string [.Byte 0xC1, .Byte 0xA1] = .ok [0x61] ∧
    interpret_string [.Byte 0x61] = .ok [0x61] :=
  C10_overlong.1 0x61 (by decide)

/-! ## Claim C7: bareword reading -/

/-- Behaviour of the bareword branch of read_next_token; the statement of claim C7,
proved here as a shared lemma. -/
theorem read_next_token_bareword (l : List Nat) (b : Nat) (t : List Nat)
    (hm : skip_whitespace l = b :: t)
    (hsimple : get_simple_token b = none)
    (hq : b ≠ 0x22) (hminus : b ≠ 0x2D) (hdig : isDigitByte b = false) :
    ((b :: t).length < 4 → read_next_token l = .err .Io_UnexpectedEof) ∧
    ((b :: t).take 4 = [0x74, 0x72, 0x75, 0x65] →
      read_next_token l = .ok (some .True, (b :: t).drop 4)) ∧
    ((b :: t).take 4 = [0x6E, 0x75, 0x6C, 0x6C] →
      read_next_token l = .ok (some .Null, (b :: t).drop 4)) ∧
    ((b :: t).take 4 = [0x66, 0x61, 0x6C, 0x73] →
      ((b :: t).drop 4 = [] → read_next_token l = .err .Io_UnexpectedEof) ∧
      (∀ c t2, (b :: t).drop 4 = c :: t2 → c = 0x65 →
        read_next_token l = .ok (some .False, t2)) ∧
      (∀ c t2, (b :: t).drop 4 = c :: t2 → c ≠ 0x65 →
        read_next_token l = .err (.InvalidBarewordBeginning [0x66, 0x61, 0x6C, 0x73, c]))) ∧
    (4 ≤ (b :: t).length →
      (b :: t).take 4 ≠ [0x74, 0x72, 0x75, 0x65] →
      (b :: t).take 4 ≠ [0x6E, 0x75, 0x6C, 0x6C] →
      (b :: t).take 4 ≠ [0x66, 0x61, 0x6C, 0x73] →
      read_next_token l = .err (.InvalidBarewordBeginning ((b :: t).take 4))) := by
  have hnum : ¬(b = 0x2D ∨ isDigitByte b = true) := by
    rintro (rfl | hx)
    · exact hminus rfl
    · rw [hdig] at hx; exact Bool.false_ne_true hx
  rcases t with _ | ⟨a1, _ | ⟨a2, _ | ⟨a3, t4⟩⟩⟩
  · have hr : read_next_token l = .err .Io_UnexpectedEof := by
      simp only [read_next_token, hm, hsimple]
      rw [if_neg hq, if_neg hnum]
    exact ⟨fun _ => hr, by intro h; simp at h, by intro h; simp at h,
      by intro h; simp at h, by intro h; simp at h⟩
  · have hr : read_next_token l = .err .Io_UnexpectedEof := by
      simp only [read_next_token, hm, hsimple]
      rw [if_neg hq, if_neg hnum]
    exact ⟨fun _ => hr, by intro h; simp at h, by intro h; simp at h,
      by intro h; simp at h, by intro h; simp at h⟩
  · have hr : read_next_token l = .err .Io_UnexpectedEof := by
      simp only [read_next_token, hm, hsimple]
      rw [if_neg hq, if_neg hnum]
    exact ⟨fun _ => hr, by intro h; simp at h, by intro h; simp at h,
      by intro h; simp at h, by intro h; simp at h⟩
  · refine ⟨by intro h; simp at h; omega, ?_, ?_, ?_, ?_⟩
    · intro h
      simp only [List.take_succ_cons, List.take_zero, List.drop_succ_cons,
        List.drop_zero] at h ⊢
      obtain ⟨rfl, rfl, rfl, rfl⟩ := by simpa using h
      simp only [read_next_token, hm, hsimple]
      rw [if_neg hq, if_neg hnum]
      norm_num
    · intro h
      simp only [List.take_succ_cons, List.take_zero, List.drop_succ_cons,
        List.drop_zero] at h ⊢
      obtain ⟨rfl, rfl, rfl, rfl⟩ := by simpa using h
      simp only [read_next_token, hm, hsimple]
      rw [if_neg hq, if_neg hnum]
      norm_num
    · intro h
      simp only [List.take_succ_cons, List.take_zero, List.drop_succ_cons,
        List.drop_zero] at h ⊢
      obtain ⟨rfl, rfl, rfl, rfl⟩ := by simpa using h
      refine ⟨?_, ?_, ?_⟩
      · intro h4
        subst h4
        simp only [read_next_token, hm, hsimple]
        rw [if_neg hq, if_neg hnum]
        norm_num
      · intro c t2 h4 hc
        subst h4
        subst hc
        simp only [read_next_token, hm, hsimple]
        rw [if_neg hq, if_neg hnum]
        norm_num
      · intro c t2 h4 hc
        subst h4
        simp only [read_next_token, hm, hsimple]
        rw [if_neg hq, if_neg hnum]
        norm_num [hc]
    · intro hlen h1 h2 h3
      simp only [List.take_succ_cons, List.take_zero] at h1 h2 h3 ⊢
      have hne1 : ¬(b = 0x74 ∧ a1 = 0x72 ∧ a2 = 0x75 ∧ a3 = 0x65) := by
        rintro ⟨rfl, rfl, rfl, rfl⟩; exact h1 rfl
      have hne2 : ¬(b = 0x6E ∧ a1 = 0x75 ∧ a2 = 0x6C ∧ a3 = 0x6C) := by
        rintro ⟨rfl, rfl, rfl, rfl⟩; exact h2 rfl
      have hne3 : ¬(b = 0x66 ∧ a1 = 0x61 ∧ a2 = 0x6C ∧ a3 = 0x73) := by
        rintro ⟨rfl, rfl, rfl, rfl⟩; exact h3 rfl
      simp only [read_next_token, hm, hsimple]
      rw [if_neg hq, if_neg hnum, if_neg hne1, if_neg hne2, if_neg hne3]

/-- C7: when `read_next_token` dispatches into the bareword branch (the first byte
after whitespace is not structural, not a quote, not a minus, not a digit), it
reads exactly four bytes: fewer available is the end-of-input error; exactly the
bytes of true or null yield those tokens with exactly four bytes consumed; the
bytes f a l s demand one further byte, an e yielding False and anything else the
InvalidBarewordBeginning error carrying the five captured characters; any other
four bytes yield InvalidBarewordBeginning carrying exactly those four. -/
theorem C7_bareword (l : List Nat) (b : Nat) (t : List Nat)
    (hm : skip_whitespace l = b :: t)
    (hsimple : get_simple_token b = none)
    (hq : b ≠ 0x22) (hminus : b ≠ 0x2D) (hdig : isDigitByte b = false) :
    ((b :: t).length < 4 → read_next_token l = .err .Io_UnexpectedEof) ∧
    ((b :: t).take 4 = [0x74, 0x72, 0x75, 0x65] →
      read_next_token l = .ok (some .True, (b :: t).drop 4)) ∧
    ((b :: t).take 4 = [0x6E, 0x75, 0x6C, 0x6C] →
      read_next_token l = .ok (some .Null, (b :: t).drop 4)) ∧
    ((b :: t).take 4 = [0x66, 0x61, 0x6C, 0x73] →
      ((b :: t).drop 4 = [] → read_next_token l = .err .Io_UnexpectedEof) ∧
      (∀ c t2, (b :: t).drop 4 = c :: t2 → c = 0x65 →
        read_next_token l = .ok (some .False, t2)) ∧
      (∀ c t2, (b :: t).drop 4 = c :: t2 → c ≠ 0x65 →
        read_next_token l = .err (.InvalidBarewordBeginning [0x66, 0x61, 0x6C, 0x73, c]))) ∧
    (4 ≤ (b :: t).length →
      (b :: t).take 4 ≠ [0x74, 0x72, 0x75, 0x65] →
      (b :: t).take 4 ≠ [0x6E, 0x75, 0x6C, 0x6C] →
      (b :: t).take 4 ≠ [0x66, 0x61, 0x6C, 0x73] →
      read_next_token l = .err (.InvalidBarewordBeginning ((b :: t).take 4))) :=
  read_next_token_bareword l b t hm hsimple hq hminus hdig

/-- Witness for C7: the bareword branch applied to the input t r u e x, which
yields the True token and leaves the final byte unread. -/
theorem C7_bareword_witness :
    read_next_token [0x74, 0x72, 0x75, 0x65, 0x78] = .ok (some .True, [0x78]) :=
  (C7_bareword [0x74, 0x72, 0x75, 0x65, 0x78] 0x74 [0x72, 0x75, 0x65, 0x78]
    (by decide) (by decide) (by decide) (by decide) (by decide)).2.1 (by decide)

/-! ## Number reader: completeness against the RFC 8259 number grammar -/

theorem sep_byte_facts (c : Nat)
    (h : isWsByte c = true ∨ c = 0x2C ∨ c = 0x5D ∨ c = 0x7D) :
    isDigitByte c = false ∧ c ≠ 0x2E ∧ c ≠ 0x45 ∧ c ≠ 0x65 := by
  rcases h with hw | rfl | rfl | rfl
  · simp [isWsByte] at hw
    rcases hw with ((rfl | rfl) | rfl) | rfl <;> exact ⟨rfl, by decide, by decide, by decide⟩
  · exact ⟨rfl, by decide, by decide, by decide⟩
  · exact ⟨rfl, by decide, by decide, by decide⟩
  · exact ⟨rfl, by decide, by decide, by decide⟩

theorem num_exit (S : ParserState)
    (hS : S = .ExpectDotOrE ∨ S = .ExpectMantissaOrDotOrE ∨ S = .ExpectFractionalOrE ∨
      S = .ExpectExponent)
    (rest : List Nat) (hrest : SepFollows rest) (acc : List Nat) :
    read_number_string_loop rest S acc = .ok (acc, rest) := by
  rcases hrest with rfl | ⟨c, t, rfl, hc⟩
  · rcases hS with rfl | rfl | rfl | rfl <;> rfl
  · obtain ⟨hd, hdot, hE, he⟩ := sep_byte_facts c hc
    have hEor : ¬(c = 0x45 ∨ c = 0x65) := not_or.mpr ⟨hE, he⟩
    have hdig : ¬(isDigitByte c = true) := by simp [hd]
    rcases hS with rfl | rfl | rfl | rfl
    · rw [read_number_string_loop.eq_def]
      dsimp only []
      rw [if_neg hdot, if_neg hEor]
    · rw [read_number_string_loop.eq_def]
      dsimp only []
      rw [if_neg hdig, if_neg hdot, if_neg hEor]
    · rw [read_number_string_loop.eq_def]
      dsimp only []
      rw [if_neg hdig, if_neg hEor]
    · rw [read_number_string_loop.eq_def]
      dsimp only []
      rw [if_neg hdig]

theorem num_digits_run :
    ∀ (ds : List Nat), (∀ b ∈ ds, isDigitByte b = true) →
      ∀ (S : ParserState), (S = .ExpectMantissaOrDotOrE ∨ S = .ExpectFractionalOrE ∨
        S = .ExpectExponent) →
      ∀ (rest acc : List Nat),
        read_number_string_loop (ds ++ rest) S acc =
          read_number_string_loop rest S (acc ++ ds) := by
  intro ds
  induction ds with
  | nil => intro _ S _ rest acc; simp
  | cons d dt ih =>
    intro hds S hS rest acc
    have hd : isDigitByte d = true := hds d (by simp)
    have hdt : ∀ b ∈ dt, isDigitByte b = true := fun b hb => hds b (by simp [hb])
    rcases hS with rfl | rfl | rfl
    · rw [List.cons_append, read_number_string_loop.eq_def]
      dsimp only []
      rw [if_pos hd, ih hdt _ (Or.inl rfl) rest (acc ++ [d])]
      simp
    · rw [List.cons_append, read_number_string_loop.eq_def]
      dsimp only []
      rw [if_pos hd, ih hdt _ (Or.inr (Or.inl rfl)) rest (acc ++ [d])]
      simp
    · rw [List.cons_append, read_number_string_loop.eq_def]
      dsimp only []
      rw [if_pos hd, ih hdt _ (Or.inr (Or.inr rfl)) rest (acc ++ [d])]
      simp

theorem num_exp_after (sgn ds rest acc : List Nat)
    (hsgn : sgn = [] ∨ sgn = [0x2B] ∨ sgn = [0x2D])
    (hne : ds ≠ []) (hdig : ∀ b ∈ ds, isDigitByte b = true)
    (hrest : SepFollows rest) :
    read_number_string_loop (sgn ++ (ds ++ rest)) .ExpectEPlusMinusOrInitialExponent acc =
      .ok (acc ++ sgn ++ ds, rest) := by
  obtain ⟨d, dt, rfl⟩ : ∃ d dt, ds = d :: dt := by
    cases ds with
    | nil => simp at hne
    | cons d dt => exact ⟨d, dt, rfl⟩
  have hd : isDigitByte d = true := hdig d (by simp)
  have hdt : ∀ b ∈ dt, isDigitByte b = true := fun b hb => hdig b (by simp [hb])
  have hdpm : ¬(d = 0x2B ∨ d = 0x2D) := by
    simp [isDigitByte] at hd
    omega
  rcases hsgn with rfl | rfl | rfl
  · simp only [List.nil_append, List.cons_append]
    rw [read_number_string_loop.eq_def]
    dsimp only []
    rw [if_neg hdpm, if_pos hd,
      num_digits_run dt hdt _ (Or.inr (Or.inr rfl)) rest (acc ++ [d]),
      num_exit _ (Or.inr (Or.inr (Or.inr rfl))) rest hrest]
    simp
  · simp only [List.cons_append, List.nil_append]
    rw [read_number_string_loop.eq_def]
    dsimp only []
    rw [if_pos (Or.inl rfl), read_number_string_loop.eq_def]
    dsimp only []
    rw [if_pos hd,
      num_digits_run dt hdt _ (Or.inr (Or.inr rfl)) rest ((acc ++ [0x2B]) ++ [d]),
      num_exit _ (Or.inr (Or.inr (Or.inr rfl))) rest hrest]
    simp
  · simp only [List.cons_append, List.nil_append]
    rw [read_number_string_loop.eq_def]
    dsimp only []
    rw [if_pos (Or.inr rfl), read_number_string_loop.eq_def]
    dsimp only []
    rw [if_pos hd,
      num_digits_run dt hdt _ (Or.inr (Or.inr rfl)) rest ((acc ++ [0x2D]) ++ [d]),
      num_exit _ (Or.inr (Or.inr (Or.inr rfl))) rest hrest]
    simp

theorem num_exp_run (es rest acc : List Nat) (hes : ExpPart es) (hrest : SepFollows rest)
    (S : ParserState)
    (hS : S = .ExpectDotOrE ∨ S = .ExpectMantissaOrDotOrE ∨ S = .ExpectFractionalOrE) :
    read_number_string_loop (es ++ rest) S acc = .ok (acc ++ es, rest) := by
  rcases hes with rfl | ⟨e, sgn, ds, rfl, he, hsgn, hne, hdig⟩
  · simp only [List.nil_append]
    rw [num_exit S (by
      rcases hS with rfl | rfl | rfl
      exacts [Or.inl rfl, Or.inr (Or.inl rfl), Or.inr (Or.inr (Or.inl rfl))]) rest hrest]
    simp
  · have hend : ¬(isDigitByte e = true) := by rcases he with rfl | rfl <;> decide
    have hedot : e ≠ 0x2E := by rcases he with rfl | rfl <;> decide
    have heor2 : (e = 0x45 ∨ e = 0x65) := by
      rcases he with rfl | rfl
      exacts [Or.inr rfl, Or.inl rfl]
    rcases hS with rfl | rfl | rfl
    · simp only [List.cons_append, List.append_assoc]
      rw [read_number_string_loop.eq_def]
      dsimp only []
      rw [if_neg hedot, if_pos heor2,
        num_exp_after sgn ds rest (acc ++ [e]) hsgn hne hdig hrest]
      simp
    · simp only [List.cons_append, List.append_assoc]
      rw [read_number_string_loop.eq_def]
      dsimp only []
      rw [if_neg hend, if_neg hedot, if_pos heor2,
        num_exp_after sgn ds rest (acc ++ [e]) hsgn hne hdig hrest]
      simp
    · simp only [List.cons_append, List.append_assoc]
      rw [read_number_string_loop.eq_def]
      dsimp only []
      rw [if_neg hend, if_pos heor2,
        num_exp_after sgn ds rest (acc ++ [e]) hsgn hne hdig hrest]
      simp

theorem num_frac_run (fs es rest acc : List Nat) (hfs : FracPart fs) (hes : ExpPart es)
    (hrest : SepFollows rest) (S : ParserState)
    (hS : S = .ExpectDotOrE ∨ S = .ExpectMantissaOrDotOrE) :
    read_number_string_loop (fs ++ (es ++ rest)) S acc = .ok (acc ++ fs ++ es, rest) := by
  rcases hfs with rfl | ⟨ds, rfl, hne, hdig⟩
  · simp only [List.nil_append]
    rw [num_exp_run es rest acc hes hrest S (by
      rcases hS with rfl | rfl
      exacts [Or.inl rfl, Or.inr (Or.inl rfl)])]
    simp
  · obtain ⟨d, dt, rfl⟩ : ∃ d dt, ds = d :: dt := by
      cases ds with
      | nil => simp at hne
      | cons d dt => exact ⟨d, dt, rfl⟩
    have hd : isDigitByte d = true := hdig d (by simp)
    have hdt : ∀ b ∈ dt, isDigitByte b = true := fun b hb => hdig b (by simp [hb])
    have hdotnd : ¬(isDigitByte 0x2E = true) := by decide
    rcases hS with rfl | rfl
    · simp only [List.cons_append, List.append_assoc]
      rw [read_number_string_loop.eq_def]
      dsimp only []
      rw [if_pos rfl, read_number_string_loop.eq_def]
      dsimp only []
      rw [if_pos hd,
        num_digits_run dt hdt _ (Or.inr (Or.inl rfl)) (es ++ rest) ((acc ++ [0x2E]) ++ [d]),
        num_exp_run es rest _ hes hrest _ (Or.inr (Or.inr rfl))]
      simp
    · simp only [List.cons_append, List.append_assoc]
      rw [read_number_string_loop.eq_def]
      dsimp only []
      rw [if_neg hdotnd, if_pos rfl, read_number_string_loop.eq_def]
      dsimp only []
      rw [if_pos hd,
        num_digits_run dt hdt _ (Or.inr (Or.inl rfl)) (es ++ rest) ((acc ++ [0x2E]) ++ [d]),
        num_exp_run es rest _ hes hrest _ (Or.inr (Or.inr rfl))]
      simp

theorem num_int_run (ip fs es rest acc : List Nat) (hip : IntPart ip) (hfs : FracPart fs)
    (hes : ExpPart es) (hrest : SepFollows rest) (S : ParserState)
    (hS : S = .ExpectMinusOrZeroOrInitialMantissa ∨ S = .ExpectInitialMantissa) :
    read_number_string_loop (ip ++ (fs ++ (es ++ rest))) S acc =
      .ok (acc ++ ip ++ fs ++ es, rest) := by
  rcases hip with rfl | ⟨d, ds, rfl, hd19, hds⟩
  · rcases hS with rfl | rfl
    · simp only [List.cons_append, List.nil_append]
      rw [read_number_string_loop.eq_def]
      dsimp only []
      rw [if_neg (by decide), if_pos rfl,
        num_frac_run fs es rest (acc ++ [0x30]) hfs hes hrest _ (Or.inl rfl)]
    · simp only [List.cons_append, List.nil_append]
      rw [read_number_string_loop.eq_def]
      dsimp only []
      rw [if_pos rfl, num_frac_run fs es rest (acc ++ [0x30]) hfs hes hrest _ (Or.inl rfl)]
  · have h19 : (0x31 ≤ d ∧ d ≤ 0x39) := hd19
    have hdm : d ≠ 0x2D := by omega
    have hd0 : d ≠ 0x30 := by omega
    rcases hS with rfl | rfl
    · simp only [List.cons_append, List.append_assoc]
      rw [read_number_string_loop.eq_def]
      dsimp only []
      rw [if_neg hdm, if_neg hd0, if_pos h19,
        num_digits_run ds hds _ (Or.inl rfl) (fs ++ (es ++ rest)) (acc ++ [d]),
        num_frac_run fs es rest _ hfs hes hrest _ (Or.inr rfl)]
      simp
    · simp only [List.cons_append, List.append_assoc]
      rw [read_number_string_loop.eq_def]
      dsimp only []
      rw [if_neg hd0, if_pos h19,
        num_digits_run ds hds _ (Or.inl rfl) (fs ++ (es ++ rest)) (acc ++ [d]),
        num_frac_run fs es rest _ hfs hes hrest _ (Or.inr rfl)]
      simp

theorem read_number_string_complete (n rest : List Nat) (hn : NumberBytes n)
    (hrest : SepFollows rest) : read_number_string (n ++ rest) = .ok (n, rest) := by
  obtain ⟨ms, ip, fs, es, rfl, hms, hip, hfs, hes⟩ := hn
  unfold read_number_string
  rcases hms with rfl | rfl
  · have := num_int_run ip fs es rest [] hip hfs hes hrest _ (Or.inl rfl)
    simp only [List.nil_append, List.append_assoc] at this ⊢
    rw [this]
  · simp only [List.cons_append, List.append_assoc, List.nil_append]
    rw [read_number_string_loop.eq_def]
    dsimp only []
    rw [if_pos rfl]
    have := num_int_run ip fs es rest [0x2D] hip hfs hes hrest _ (Or.inr rfl)
    simp only [List.append_assoc, List.nil_append] at this ⊢
    rw [this]
    simp

/-! ## Lexer completeness: well-formed token bytes produce the expected token -/

theorem read_string_loop_true_esc (b : Nat) (ec : JsonChar) (rest : List Nat)
    (acc : List JsonChar) (h75 : b ≠ 0x75) (hec : escape_char b = some ec) :
    read_string_loop (b :: rest) true acc = read_string_loop rest false (acc ++ [ec]) := by
  rw [read_string_loop.eq_def]
  dsimp only []
  rw [if_neg h75, hec]
  rfl

theorem read_string_loop_true_u (h1 h2 h3 h4 : Nat) (rest4 : List Nat) (acc : List JsonChar)
    (hh : (isHexDigitByte h1 && isHexDigitByte h2 && isHexDigitByte h3 &&
      isHexDigitByte h4) = true) :
    read_string_loop (0x75 :: h1 :: h2 :: h3 :: h4 :: rest4) true acc =
      read_string_loop rest4 false (acc ++ [.UnicodeEscape (hexValue h1 h2 h3 h4)]) := by
  rw [read_string_loop.eq_def]
  dsimp only []
  rw [if_pos rfl]
  rw [if_pos hh]

theorem read_string_complete (inner : List Nat) (cs : List JsonChar) (h : StrChars inner cs) :
    ∀ (rest : List Nat) (acc : List JsonChar),
      read_string_loop (inner ++ (0x22 :: rest)) false acc = .ok (acc ++ cs, rest) := by
  induction h with
  | nil =>
    intro rest acc
    rw [List.nil_append, read_string_loop_cons_false, if_pos rfl]
    simp
  | cons hc _ ih =>
    intro rest acc
    cases hc with
    | raw b hb1 hb2 =>
      simp only [List.append_assoc, List.cons_append, List.nil_append]
      rw [read_string_loop_cons_false, if_neg hb1, if_neg hb2, ih rest (acc ++ [JsonChar.Byte b])]
      simp
    | q =>
      simp only [List.append_assoc, List.cons_append, List.nil_append]
      rw [read_string_loop_cons_false, if_neg (by decide), if_pos rfl,
        read_string_loop_true_esc 0x22 JsonChar.EscapedQuote _ _ (by decide) rfl,
        ih rest (acc ++ [JsonChar.EscapedQuote])]
      simp
    | bsl =>
      simp only [List.append_assoc, List.cons_append, List.nil_append]
      rw [read_string_loop_cons_false, if_neg (by decide), if_pos rfl,
        read_string_loop_true_esc 0x5C JsonChar.EscapedBackslash _ _ (by decide) rfl,
        ih rest (acc ++ [JsonChar.EscapedBackslash])]
      simp
    | sl =>
      simp only [List.append_assoc, List.cons_append, List.nil_append]
      rw [read_string_loop_cons_false, if_neg (by decide), if_pos rfl,
        read_string_loop_true_esc 0x2F JsonChar.EscapedSlash _ _ (by decide) rfl,
        ih rest (acc ++ [JsonChar.EscapedSlash])]
      simp
    | bsp =>
      simp only [List.append_assoc, List.cons_append, List.nil_append]
      rw [read_string_loop_cons_false, if_neg (by decide), if_pos rfl,
        read_string_loop_true_esc 0x62 JsonChar.EscapedBackspace _ _ (by decide) rfl,
        ih rest (acc ++ [JsonChar.EscapedBackspace])]
      simp
    | ff =>
      simp only [List.append_assoc, List.cons_append, List.nil_append]
      rw [read_string_loop_cons_false, if_neg (by decide), if_pos rfl,
        read_string_loop_true_esc 0x66 JsonChar.EscapedFormFeed _ _ (by decide) rfl,
        ih rest (acc ++ [JsonChar.EscapedFormFeed])]
      simp
    | lf =>
      simp only [List.append_assoc, List.cons_append, List.nil_append]
      rw [read_string_loop_cons_false, if_neg (by decide), if_pos rfl,
        read_string_loop_true_esc 0x6E JsonChar.EscapedLineFeed _ _ (by decide) rfl,
        ih rest (acc ++ [JsonChar.EscapedLineFeed])]
      simp
    | cr =>
      simp only [List.append_assoc, List.cons_append, List.nil_append]
      rw [read_string_loop_cons_false, if_neg (by decide), if_pos rfl,
        read_string_loop_true_esc 0x72 JsonChar.EscapedCarriageReturn _ _ (by decide) rfl,
        ih rest (acc ++ [JsonChar.EscapedCarriageReturn])]
      simp
    | tb =>
      simp only [List.append_assoc, List.cons_append, List.nil_append]
      rw [read_string_loop_cons_false, if_neg (by decide), if_pos rfl,
        read_string_loop_true_esc 0x74 JsonChar.EscapedTab _ _ (by decide) rfl,
        ih rest (acc ++ [JsonChar.EscapedTab])]
      simp
    | uni h1 h2 h3 h4 hx1 hx2 hx3 hx4 =>
      simp only [List.append_assoc, List.cons_append, List.nil_append]
      rw [read_string_loop_cons_false, if_neg (by decide), if_pos rfl,
        read_string_loop_true_u h1 h2 h3 h4 _ _ (by simp [hx1, hx2, hx3, hx4]),
        ih rest (acc ++ [JsonChar.UnicodeEscape (hexValue h1 h2 h3 h4)])]
      simp

theorem read_string_complete_tok (inner : List Nat) (cs : List JsonChar) (rest : List Nat)
    (h : StrChars inner cs) :
    read_string (0x22 :: (inner ++ (0x22 :: rest))) = .ok (cs, rest) := by
  rw [read_string_cons, if_pos rfl, read_string_complete inner cs h rest []]
  simp

theorem read_next_token_ws (w x : List Nat) (hw : WsList w) :
    read_next_token (w ++ x) = read_next_token x := by
  unfold read_next_token
  rw [skip_whitespace_ws_append w x hw]

theorem verify_from_ws (w x : List Nat) (hw : WsList w) (e : Nat) (s : List JsonStackValue) :
    verify_from (w ++ x) e s = verify_from x e s := by
  rw [verify_from_step, verify_from_step]
  unfold verify_step
  rw [read_next_token_ws w x hw]

theorem rnt_simple (c : Nat) (rest : List Nat) (tk : JsonToken)
    (hc : get_simple_token c = some tk) (hcw : isWsByte c = false) :
    read_next_token (c :: rest) = .ok (some tk, rest) := by
  unfold read_next_token
  rw [skip_whitespace_cons_not_ws c rest hcw]
  dsimp only []
  rw [hc]

theorem rnt_string (inner : List Nat) (cs : List JsonChar) (rest : List Nat)
    (h : StrChars inner cs) :
    read_next_token (0x22 :: (inner ++ (0x22 :: rest))) = .ok (some (.String cs), rest) := by
  unfold read_next_token
  rw [skip_whitespace_cons_not_ws _ _ (by decide)]
  dsimp only []
  rw [show get_simple_token 0x22 = none from rfl]
  dsimp only []
  rw [if_pos rfl, read_string_complete_tok inner cs rest h]

theorem rnt_true (rest : List Nat) :
    read_next_token (0x74 :: 0x72 :: 0x75 :: 0x65 :: rest) = .ok (some .True, rest) := by
  have h := (read_next_token_bareword (0x74 :: 0x72 :: 0x75 :: 0x65 :: rest) 0x74
    (0x72 :: 0x75 :: 0x65 :: rest) (skip_whitespace_cons_not_ws _ _ (by decide))
    (by decide) (by decide) (by decide) (by decide)).2.1 (by simp)
  simpa using h

theorem rnt_null (rest : List Nat) :
    read_next_token (0x6E :: 0x75 :: 0x6C :: 0x6C :: rest) = .ok (some .Null, rest) := by
  have h := (read_next_token_bareword (0x6E :: 0x75 :: 0x6C :: 0x6C :: rest) 0x6E
    (0x75 :: 0x6C :: 0x6C :: rest) (skip_whitespace_cons_not_ws _ _ (by decide))
    (by decide) (by decide) (by decide) (by decide)).2.2.1 (by simp)
  simpa using h

theorem rnt_false (rest : List Nat) :
    read_next_token (0x66 :: 0x61 :: 0x6C :: 0x73 :: 0x65 :: rest) =
      .ok (some .False, rest) := by
  have h := ((read_next_token_bareword (0x66 :: 0x61 :: 0x6C :: 0x73 :: 0x65 :: rest) 0x66
    (0x61 :: 0x6C :: 0x73 :: 0x65 :: rest) (skip_whitespace_cons_not_ws _ _ (by decide))
    (by decide) (by decide) (by decide) (by decide)).2.2.2.1 (by simp)).2.1 0x65 rest
    (by simp) rfl
  exact h

theorem number_bytes_head (m : List Nat) (hm : NumberBytes m) :
    ∃ b0 n, m = b0 :: n ∧ (b0 = 0x2D ∨ isDigitByte b0 = true) := by
  obtain ⟨ms, ip, fs, es, rfl, hms, hip, hfs, hes⟩ := hm
  rcases hms with rfl | rfl
  · rcases hip with rfl | ⟨d, ds, rfl, hd, _⟩
    · exact ⟨0x30, fs ++ es, by simp, Or.inr (by decide)⟩
    · refine ⟨d, ds ++ (fs ++ es), by simp, Or.inr ?_⟩
      simp only [isDigitByte, Bool.and_eq_true, decide_eq_true_eq]
      omega
  · exact ⟨0x2D, ip ++ (fs ++ es), by simp, Or.inl rfl⟩

theorem rnt_number (m rest : List Nat) (hm : NumberBytes m) (hrest : SepFollows rest) :
    read_next_token (m ++ rest) = .ok (some (.Number m), rest) := by
  obtain ⟨b0, n, rfl, hb0⟩ := number_bytes_head m hm
  have hnum := read_number_string_complete (b0 :: n) rest hm hrest
  have hdig : b0 = 0x2D ∨ (0x30 ≤ b0 ∧ b0 ≤ 0x39) := by
    rcases hb0 with h | h
    · exact Or.inl h
    · simp only [isDigitByte, Bool.and_eq_true, decide_eq_true_eq] at h
      exact Or.inr h
  have hws : isWsByte b0 = false := by
    simp only [isWsByte, Bool.or_eq_false_iff, beq_eq_false_iff_ne, ne_eq]
    rcases hdig with rfl | h
    · exact ⟨⟨⟨by decide, by decide⟩, by decide⟩, by decide⟩
    · exact ⟨⟨⟨by omega, by omega⟩, by omega⟩, by omega⟩
  have hsimple : get_simple_token b0 = none := by
    unfold get_simple_token
    rcases hdig with rfl | h
    · rfl
    · rw [if_neg (by omega), if_neg (by omega), if_neg (by omega), if_neg (by omega),
        if_neg (by omega), if_neg (by omega)]
  unfold read_next_token
  rw [List.cons_append, skip_whitespace_cons_not_ws _ _ hws]
  dsimp only []
  rw [hsimple]
  dsimp only []
  rw [if_neg (by rcases hdig with rfl | h; exacts [by decide, by omega]),
    if_pos (by rcases hb0 with h | h; exacts [Or.inl h, Or.inr h])]
  rw [show (b0 :: (n ++ rest)) = ((b0 :: n) ++ rest) from rfl, hnum]

/-! ## Grammar completeness: derivable bytes drive the verifier as the motive says -/

theorem sep_follows_ws_cons (w : List Nat) (c : Nat) (x : List Nat) (hw : WsList w)
    (hc : isWsByte c = true ∨ c = 0x2C ∨ c = 0x5D ∨ c = 0x7D) :
    SepFollows (w ++ c :: x) := by
  cases w with
  | nil => exact Or.inr ⟨c, x, rfl, hc⟩
  | cons a w2 => exact Or.inr ⟨a, w2 ++ c :: x, by simp, Or.inl (hw a (by simp))⟩

theorem sep_follows_of_ws (l : List Nat) (h : WsList l) : SepFollows l := by
  cases l with
  | nil => exact Or.inl rfl
  | cons a t => exact Or.inr ⟨a, t, rfl, Or.inl (h a (by simp))⟩

theorem G_arrTail_sep (t : List Nat) (h : G .arrTail t) (r : List Nat) :
    SepFollows (t ++ r) := by
  cases h with
  | arrClose hw =>
    rename_i w
    rw [show (w ++ [0x5D]) ++ r = w ++ 0x5D :: r by simp]
    exact sep_follows_ws_cons w 0x5D r hw (Or.inr (Or.inr (Or.inl rfl)))
  | arrComma hw hb =>
    rename_i w b
    rw [show (w ++ 0x2C :: b) ++ r = w ++ 0x2C :: (b ++ r) by simp]
    exact sep_follows_ws_cons w 0x2C _ hw (Or.inr (Or.inl rfl))

theorem G_objTail_sep (ks : List (List Nat)) (t : List Nat) (h : G (.objTail ks) t)
    (r : List Nat) : SepFollows (t ++ r) := by
  cases h with
  | objClose hw =>
    rename_i w
    rw [show (w ++ [0x7D]) ++ r = w ++ 0x7D :: r by simp]
    exact sep_follows_ws_cons w 0x7D r hw (Or.inr (Or.inr (Or.inr rfl)))
  | objComma hw hb =>
    rename_i w b
    rw [show (w ++ 0x2C :: b) ++ r = w ++ 0x2C :: (b ++ r) by simp]
    exact sep_follows_ws_cons w 0x2C _ hw (Or.inr (Or.inl rfl))

theorem verify_finish_ws (l : List Nat) (h : WsList l) : verify_finish [] l = true := by
  unfold verify_finish
  rw [if_neg (by simp), skip_whitespace_ws_only l h]
  rfl

theorem G_complete {k : NT} {b : List Nat} (hg : G k b) : Gmot k b := by
  induction hg with
  | null =>
    intro rest e s he hrest
    simp only [List.cons_append, List.nil_append]
    rw [verify_from_step]
    unfold verify_step
    rw [rnt_null rest]
    dsimp only []
    rw [if_pos (by rcases he with rfl | rfl <;> decide)]
    rcases s with _ | ⟨f, s2⟩
    · rfl
    · cases f <;> rfl
  | tru =>
    intro rest e s he hrest
    simp only [List.cons_append, List.nil_append]
    rw [verify_from_step]
    unfold verify_step
    rw [rnt_true rest]
    dsimp only []
    rw [if_pos (by rcases he with rfl | rfl <;> decide)]
    rcases s with _ | ⟨f, s2⟩
    · rfl
    · cases f <;> rfl
  | fal =>
    intro rest e s he hrest
    simp only [List.cons_append, List.nil_append]
    rw [verify_from_step]
    unfold verify_step
    rw [rnt_false rest]
    dsimp only []
    rw [if_pos (by rcases he with rfl | rfl <;> decide)]
    rcases s with _ | ⟨f, s2⟩
    · rfl
    · cases f <;> rfl
  | num hn =>
    intro rest e s he hrest
    rw [verify_from_step]
    unfold verify_step
    rw [rnt_number _ rest hn hrest]
    dsimp only []
    rw [if_pos (by rcases he with rfl | rfl <;> decide)]
    rcases s with _ | ⟨f, s2⟩
    · rfl
    · cases f <;> rfl
  | str hrel =>
    rename_i b2 t2
    intro rest e s he hrest
    obtain ⟨inner, cs2, rfl, hsc, hint⟩ := hrel
    simp only [List.cons_append, List.append_assoc, List.nil_append]
    rw [verify_from_step]
    unfold verify_step
    rw [rnt_string inner cs2 rest hsc]
    dsimp only []
    rw [hint]
    dsimp only []
    rw [if_neg (by rcases he with rfl | rfl <;> decide),
      if_pos (by rcases he with rfl | rfl <;> decide)]
    rcases s with _ | ⟨f, s2⟩
    · rfl
    · cases f <;> rfl
  | arr hb ih =>
    intro rest e s he hrest
    simp only [List.cons_append]
    rw [verify_from_step]
    unfold verify_step
    rw [rnt_simple 0x5B _ JsonToken.OpeningBracket rfl (by decide)]
    dsimp only []
    rw [if_pos (by rcases he with rfl | rfl <;> decide)]
    exact ih rest s 0 hrest
  | obj hb ih =>
    intro rest e s he hrest
    simp only [List.cons_append]
    rw [verify_from_step]
    unfold verify_step
    rw [rnt_simple 0x7B _ JsonToken.OpeningBrace rfl (by decide)]
    dsimp only []
    rw [if_pos (by rcases he with rfl | rfl <;> decide)]
    exact ih rest s none hrest
  | arrNil hw =>
    rename_i w
    intro rest s i hrest
    rw [show (w ++ [0x5D]) ++ rest = w ++ (0x5D :: rest) by simp,
      verify_from_ws _ _ hw, verify_from_step]
    unfold verify_step
    rw [rnt_simple 0x5D _ JsonToken.ClosingBracket rfl (by decide)]
    dsimp only []
    rw [if_pos (by decide)]
    rcases s with _ | ⟨f, s2⟩
    · rfl
    · cases f <;> rfl
  | arrFirst hb ih =>
    intro rest s i hrest
    exact ih rest 0x11 s i (Or.inr rfl) hrest
  | arrValueI hw hv ht ihv iht =>
    rename_i w v t
    intro rest e s i he hrest
    rw [show (w ++ v ++ t) ++ rest = w ++ (v ++ (t ++ rest)) by simp,
      verify_from_ws _ _ hw,
      ihv (t ++ rest) e (JsonStackValue.Array i :: s) he (G_arrTail_sep t ht rest)]
    exact iht rest s i hrest
  | arrClose hw =>
    rename_i w
    intro rest s i hrest
    rw [show (w ++ [0x5D]) ++ rest = w ++ (0x5D :: rest) by simp,
      verify_from_ws _ _ hw, verify_from_step]
    unfold verify_step
    rw [rnt_simple 0x5D _ JsonToken.ClosingBracket rfl (by decide)]
    dsimp only []
    rw [if_pos (by decide)]
    rcases s with _ | ⟨f, s2⟩
    · rfl
    · cases f <;> rfl
  | arrComma hw hb ih =>
    rename_i w b2
    intro rest s i hrest
    rw [show (w ++ 0x2C :: b2) ++ rest = w ++ (0x2C :: (b2 ++ rest)) by simp,
      verify_from_ws _ _ hw, verify_from_step]
    unfold verify_step
    rw [rnt_simple 0x2C _ JsonToken.Comma rfl (by decide)]
    dsimp only []
    rw [if_pos (by decide)]
    exact ih rest 0x01 s (i + 1) (Or.inl rfl) hrest
  | objNil hw =>
    rename_i w ks
    intro rest s ck hrest
    rw [show (w ++ [0x7D]) ++ rest = w ++ (0x7D :: rest) by simp,
      verify_from_ws _ _ hw, verify_from_step]
    unfold verify_step
    rw [rnt_simple 0x7D _ JsonToken.ClosingBrace rfl (by decide)]
    dsimp only []
    rw [if_pos (by decide)]
    rcases s with _ | ⟨f, s2⟩
    · rfl
    · cases f <;> rfl
  | objFirst hb ih =>
    intro rest s ck hrest
    exact ih rest 0x22 s ck (Or.inr rfl) hrest
  | memberI hw hrel hk hpost ihpost =>
    rename_i w sB kT b2 ks
    intro rest e st ck he hrest
    obtain ⟨inner, cs2, rfl, hsc, hint⟩ := hrel
    rw [show (w ++ (0x22 :: (inner ++ [0x22])) ++ b2) ++ rest
        = w ++ (0x22 :: (inner ++ (0x22 :: (b2 ++ rest)))) by simp,
      verify_from_ws _ _ hw, verify_from_step]
    unfold verify_step
    rw [rnt_string inner cs2 _ hsc]
    dsimp only []
    rw [hint]
    dsimp only []
    rw [if_pos (by rcases he with rfl | rfl <;> decide)]
    rw [if_neg hk]
    exact ihpost rest st (some kT) hrest
  | postKeyI hw hp ih =>
    rename_i w b2 ks
    intro rest st ck hrest
    rw [show (w ++ 0x3A :: b2) ++ rest = w ++ (0x3A :: (b2 ++ rest)) by simp,
      verify_from_ws _ _ hw, verify_from_step]
    unfold verify_step
    rw [rnt_simple 0x3A _ JsonToken.Colon rfl (by decide)]
    dsimp only []
    rw [if_pos (by decide)]
    exact ih rest st ck hrest
  | postColonI hw hv ht ihv iht =>
    rename_i w v t ks
    intro rest st ck hrest
    rw [show (w ++ v ++ t) ++ rest = w ++ (v ++ (t ++ rest)) by simp,
      verify_from_ws _ _ hw,
      ihv (t ++ rest) 0x01 (JsonStackValue.Object ks ck :: st) (Or.inl rfl)
        (G_objTail_sep ks t ht rest)]
    exact iht rest st ck hrest
  | objClose hw =>
    rename_i w ks
    intro rest st ck hrest
    rw [show (w ++ [0x7D]) ++ rest = w ++ (0x7D :: rest) by simp,
      verify_from_ws _ _ hw, verify_from_step]
    unfold verify_step
    rw [rnt_simple 0x7D _ JsonToken.ClosingBrace rfl (by decide)]
    dsimp only []
    rw [if_pos (by decide)]
    rcases st with _ | ⟨f, s2⟩
    · rfl
    · cases f <;> rfl
  | objComma hw hb ih =>
    rename_i w b2 ks
    intro rest st ck hrest
    rw [show (w ++ 0x2C :: b2) ++ rest = w ++ (0x2C :: (b2 ++ rest)) by simp,
      verify_from_ws _ _ hw, verify_from_step]
    unfold verify_step
    rw [rnt_simple 0x2C _ JsonToken.Comma rfl (by decide)]
    dsimp only []
    rw [if_pos (by decide)]
    exact ih rest 0x02 st none (Or.inl rfl) hrest

theorem verify_gdoc (l : List Nat) (h : GDoc l) : verify l = .result true := by
  obtain ⟨w1, v, w2, rfl, hw1, hv, hw2⟩ := h
  unfold verify
  rw [show w1 ++ v ++ w2 = w1 ++ (v ++ w2) by simp, verify_from_ws _ _ hw1,
    G_complete hv w2 ParserExpects.VALUE [] (Or.inl rfl) (sep_follows_of_ws w2 hw2)]
  show VerifyOutcome.result (verify_finish [] w2) = VerifyOutcome.result true
  rw [verify_finish_ws w2 hw2]

/-! ## Lexer soundness: successful reads decompose the input into grammar bytes -/

theorem escape_char_inv (b : Nat) (ec : JsonChar) (h : escape_char b = some ec) :
    StrChar [0x5C, b] ec := by
  unfold escape_char at h
  split_ifs at h with h1 h2 h3 h4 h5 h6 h7 h8
  · cases h; subst h1; exact .q
  · cases h; subst h2; exact .bsl
  · cases h; subst h3; exact .sl
  · cases h; subst h4; exact .bsp
  · cases h; subst h5; exact .ff
  · cases h; subst h6; exact .lf
  · cases h; subst h7; exact .cr
  · cases h; subst h8; exact .tb

theorem get_simple_token_inv (c : Nat) (tk : JsonToken) (h : get_simple_token c = some tk) :
    (c = 0x5B ∧ tk = .OpeningBracket) ∨ (c = 0x5D ∧ tk = .ClosingBracket) ∨
    (c = 0x7B ∧ tk = .OpeningBrace) ∨ (c = 0x7D ∧ tk = .ClosingBrace) ∨
    (c = 0x3A ∧ tk = .Colon) ∨ (c = 0x2C ∧ tk = .Comma) := by
  unfold get_simple_token at h
  split_ifs at h with h1 h2 h3 h4 h5 h6
  · cases h; exact Or.inl ⟨h1, rfl⟩
  · cases h; exact Or.inr (Or.inl ⟨h2, rfl⟩)
  · cases h; exact Or.inr (Or.inr (Or.inl ⟨h3, rfl⟩))
  · cases h; exact Or.inr (Or.inr (Or.inr (Or.inl ⟨h4, rfl⟩)))
  · cases h; exact Or.inr (Or.inr (Or.inr (Or.inr (Or.inl ⟨h5, rfl⟩))))
  · cases h; exact Or.inr (Or.inr (Or.inr (Or.inr (Or.inr ⟨h6, rfl⟩))))

theorem skip_whitespace_decomp (l : List Nat) :
    ∃ w, WsList w ∧ l = w ++ skip_whitespace l := by
  refine ⟨l.takeWhile isWsByte, ?_, ?_⟩
  · intro b hb
    exact List.mem_takeWhile_imp hb
  · unfold skip_whitespace
    exact (List.takeWhile_append_dropWhile isWsByte l).symm

theorem read_string_loop_sound :
    ∀ (m : Nat) (bs : List Nat), bs.length ≤ m → ∀ acc str r,
      read_string_loop bs false acc = .ok (str, r) →
      ∃ inner cs, bs = inner ++ (0x22 :: r) ∧ StrChars inner cs ∧ str = acc ++ cs := by
  intro m
  induction m with
  | zero =>
    intro bs hlen acc str r h
    rw [List.length_eq_zero.mp (Nat.le_zero.mp hlen)] at h
    simp [read_string_loop] at h
  | succ m ih =>
    intro bs hlen acc str r h
    cases bs with
    | nil => simp [read_string_loop] at h
    | cons b rest =>
      simp only [List.length_cons] at hlen
      rw [read_string_loop_cons_false] at h
      by_cases hq : b = 0x22
      · rw [if_pos hq] at h
        subst hq
        obtain ⟨rfl, rfl⟩ : str = acc ∧ rest = r := by
          simpa [eq_comm, and_comm] using h
        exact ⟨[], [], by simp, .nil, by simp⟩
      · rw [if_neg hq] at h
        by_cases hbs : b = 0x5C
        · rw [if_pos hbs] at h
          subst hbs
          cases rest with
          | nil => simp [read_string_loop] at h
          | cons b2 rest2 =>
            simp only [List.length_cons] at hlen
            rw [read_string_loop.eq_def] at h
            dsimp only [] at h
            by_cases hu : b2 = 0x75
            · rw [if_pos hu] at h
              subst hu
              match rest2, hlen with
              | [], _ => simp at h
              | [h1], _ => simp at h
              | [h1, h2], _ => simp at h
              | [h1, h2, h3], _ => simp at h
              | h1 :: h2 :: h3 :: h4 :: rest4, hlen => ?_
              dsimp only [] at h
              by_cases hhex : (isHexDigitByte h1 && isHexDigitByte h2 && isHexDigitByte h3 &&
                  isHexDigitByte h4) = true
              · rw [if_pos hhex] at h
                obtain ⟨inner2, cs2, rfl, hsc2, rfl⟩ :=
                  ih rest4 (by simp only [List.length_cons] at hlen; omega) _ _ _ h
                simp only [Bool.and_eq_true] at hhex
                refine ⟨0x5C :: 0x75 :: h1 :: h2 :: h3 :: h4 :: inner2,
                  .UnicodeEscape (hexValue h1 h2 h3 h4) :: cs2, by simp, ?_, by simp⟩
                exact StrChars.cons (StrChar.uni h1 h2 h3 h4 hhex.1.1.1 hhex.1.1.2 hhex.1.2 hhex.2)
                  hsc2
              · rw [if_neg hhex] at h
                simp at h
            · rw [if_neg hu] at h
              cases hec : escape_char b2 with
              | none => rw [hec] at h; simp [Option.elim] at h
              | some ec =>
                rw [hec] at h
                simp only [Option.elim] at h
                obtain ⟨inner2, cs2, rfl, hsc2, rfl⟩ :=
                  ih rest2 (by omega) _ _ _ h
                refine ⟨0x5C :: b2 :: inner2, ec :: cs2, by simp, ?_, by simp⟩
                exact StrChars.cons (escape_char_inv b2 ec hec) hsc2
        · rw [if_neg hbs] at h
          obtain ⟨inner2, cs2, rfl, hsc2, rfl⟩ := ih rest (by omega) _ _ _ h
          refine ⟨b :: inner2, .Byte b :: cs2, by simp, ?_, by simp⟩
          exact StrChars.cons (StrChar.raw b hq hbs) hsc2

theorem digits_cons (b : Nat) (ds : List Nat) (hb : isDigitByte b = true)
    (hds : ∀ c ∈ ds, isDigitByte c = true) : ∀ c ∈ b :: ds, isDigitByte c = true := by
  intro c hc
  rcases List.mem_cons.mp hc with rfl | hc2
  · exact hb
  · exact hds c hc2

theorem num_loop_sound_nil (st : ParserState) (buf n r : List Nat)
    (h : read_number_string_loop [] st buf = .ok (n, r)) :
    ∃ d, ([] : List Nat) = d ++ r ∧ n = buf ++ d ∧ NumSuffix st d := by
  cases st with
  | ExpectMinusOrZeroOrInitialMantissa => simp [read_number_string_loop] at h
  | ExpectInitialMantissa => simp [read_number_string_loop] at h
  | ExpectFractional => simp [read_number_string_loop] at h
  | ExpectEPlusMinusOrInitialExponent => simp [read_number_string_loop] at h
  | ExpectInitialExponent => simp [read_number_string_loop] at h
  | ExpectDotOrE =>
    simp only [read_number_string_loop, Res.ok.injEq, Prod.mk.injEq] at h
    obtain ⟨rfl, rfl⟩ := h
    exact ⟨[], by simp, by simp, ⟨[], [], by simp, Or.inl rfl, Or.inl rfl⟩⟩
  | ExpectMantissaOrDotOrE =>
    simp only [read_number_string_loop, Res.ok.injEq, Prod.mk.injEq] at h
    obtain ⟨rfl, rfl⟩ := h
    exact ⟨[], by simp, by simp, ⟨[], [], [], by simp, by simp, Or.inl rfl, Or.inl rfl⟩⟩
  | ExpectFractionalOrE =>
    simp only [read_number_string_loop, Res.ok.injEq, Prod.mk.injEq] at h
    obtain ⟨rfl, rfl⟩ := h
    exact ⟨[], by simp, by simp, ⟨[], [], by simp, by simp, Or.inl rfl⟩⟩
  | ExpectExponent =>
    simp only [read_number_string_loop, Res.ok.injEq, Prod.mk.injEq] at h
    obtain ⟨rfl, rfl⟩ := h
    exact ⟨[], by simp, by simp, by simp [NumSuffix]⟩

theorem read_number_string_loop_sound :
    ∀ (m : Nat) (l : List Nat), l.length ≤ m → ∀ st buf n r,
      read_number_string_loop l st buf = .ok (n, r) →
      ∃ d, l = d ++ r ∧ n = buf ++ d ∧ NumSuffix st d := by
  intro m
  induction m with
  | zero =>
    intro l hlen st buf n r h
    obtain rfl : l = [] := List.length_eq_zero.mp (Nat.le_zero.mp hlen)
    exact num_loop_sound_nil _ _ _ _ h
  | succ m ih =>
    intro l hlen st buf n r h
    cases l with
    | nil =>
      exact num_loop_sound_nil _ _ _ _ h
    | cons b rest =>
      simp only [List.length_cons] at hlen
      rw [read_number_string_loop.eq_def] at h
      dsimp only [] at h
      cases st with
      | ExpectMinusOrZeroOrInitialMantissa =>
        dsimp only [] at h
        split_ifs at h with h1 h2 h3
        · obtain ⟨d, rfl, rfl, hsuf⟩ := ih rest (by omega) _ _ _ _ h
          obtain ⟨ip, fs, es, rfl, hip, hfs, hes⟩ := hsuf
          subst h1
          refine ⟨0x2D :: (ip ++ fs ++ es), by simp, by simp, ?_⟩
          exact ⟨[0x2D], ip, fs, es, by simp, Or.inr rfl, hip, hfs, hes⟩
        · obtain ⟨d, rfl, rfl, hsuf⟩ := ih rest (by omega) _ _ _ _ h
          obtain ⟨fs, es, rfl, hfs, hes⟩ := hsuf
          subst h2
          refine ⟨0x30 :: (fs ++ es), by simp, by simp, ?_⟩
          exact ⟨[], [0x30], fs, es, by simp, Or.inl rfl, Or.inl rfl, hfs, hes⟩
        · obtain ⟨d, rfl, rfl, hsuf⟩ := ih rest (by omega) _ _ _ _ h
          obtain ⟨ds, fs, es, rfl, hds, hfs, hes⟩ := hsuf
          refine ⟨b :: (ds ++ fs ++ es), by simp, by simp, ?_⟩
          exact ⟨[], b :: ds, fs, es, by simp, Or.inl rfl,
            Or.inr ⟨b, ds, rfl, h3, hds⟩, hfs, hes⟩
      | ExpectInitialMantissa =>
        dsimp only [] at h
        split_ifs at h with h1 h2
        · obtain ⟨d, rfl, rfl, hsuf⟩ := ih rest (by omega) _ _ _ _ h
          obtain ⟨fs, es, rfl, hfs, hes⟩ := hsuf
          subst h1
          refine ⟨0x30 :: (fs ++ es), by simp, by simp, ?_⟩
          exact ⟨[0x30], fs, es, by simp, Or.inl rfl, hfs, hes⟩
        · obtain ⟨d, rfl, rfl, hsuf⟩ := ih rest (by omega) _ _ _ _ h
          obtain ⟨ds, fs, es, rfl, hds, hfs, hes⟩ := hsuf
          refine ⟨b :: (ds ++ fs ++ es), by simp, by simp, ?_⟩
          exact ⟨b :: ds, fs, es, by simp, Or.inr ⟨b, ds, rfl, h2, hds⟩, hfs, hes⟩
      | ExpectDotOrE =>
        dsimp only [] at h
        split_ifs at h with h1 h2
        · obtain ⟨d, rfl, rfl, hsuf⟩ := ih rest (by omega) _ _ _ _ h
          obtain ⟨ds, es, rfl, hne, hds, hes⟩ := hsuf
          subst h1
          refine ⟨0x2E :: (ds ++ es), by simp, by simp, ?_⟩
          exact ⟨0x2E :: ds, es, by simp, Or.inr ⟨ds, rfl, hne, hds⟩, hes⟩
        · obtain ⟨d, rfl, rfl, hsuf⟩ := ih rest (by omega) _ _ _ _ h
          obtain ⟨sgn, ds, rfl, hsgn, hne, hds⟩ := hsuf
          refine ⟨b :: (sgn ++ ds), by simp, by simp, ?_⟩
          exact ⟨[], b :: (sgn ++ ds), by simp, Or.inl rfl,
            Or.inr ⟨b, sgn, ds, rfl, h2.symm, hsgn, hne, hds⟩⟩
        · simp only [Res.ok.injEq, Prod.mk.injEq] at h
          obtain ⟨rfl, rfl⟩ := h
          exact ⟨[], by simp, by simp, ⟨[], [], by simp, Or.inl rfl, Or.inl rfl⟩⟩
      | ExpectMantissaOrDotOrE =>
        dsimp only [] at h
        split_ifs at h with h1 h2 h3
        · obtain ⟨d, rfl, rfl, hsuf⟩ := ih rest (by omega) _ _ _ _ h
          obtain ⟨ds, fs, es, rfl, hds, hfs, hes⟩ := hsuf
          refine ⟨b :: (ds ++ fs ++ es), by simp, by simp, ?_⟩
          exact ⟨b :: ds, fs, es, by simp, digits_cons b ds h1 hds, hfs, hes⟩
        · obtain ⟨d, rfl, rfl, hsuf⟩ := ih rest (by omega) _ _ _ _ h
          obtain ⟨ds, es, rfl, hne, hds, hes⟩ := hsuf
          subst h2
          refine ⟨0x2E :: (ds ++ es), by simp, by simp, ?_⟩
          exact ⟨[], 0x2E :: ds, es, by simp, by simp,
            Or.inr ⟨ds, rfl, hne, hds⟩, hes⟩
        · obtain ⟨d, rfl, rfl, hsuf⟩ := ih rest (by omega) _ _ _ _ h
          obtain ⟨sgn, ds, rfl, hsgn, hne, hds⟩ := hsuf
          refine ⟨b :: (sgn ++ ds), by simp, by simp, ?_⟩
          exact ⟨[], [], b :: (sgn ++ ds), by simp, by simp, Or.inl rfl,
            Or.inr ⟨b, sgn, ds, rfl, h3.symm, hsgn, hne, hds⟩⟩
        · simp only [Res.ok.injEq, Prod.mk.injEq] at h
          obtain ⟨rfl, rfl⟩ := h
          exact ⟨[], by simp, by simp,
            ⟨[], [], [], by simp, by simp, Or.inl rfl, Or.inl rfl⟩⟩
      | ExpectFractional =>
        dsimp only [] at h
        split_ifs at h with h1
        · obtain ⟨d, rfl, rfl, hsuf⟩ := ih rest (by omega) _ _ _ _ h
          obtain ⟨ds, es, rfl, hds, hes⟩ := hsuf
          refine ⟨b :: (ds ++ es), by simp, by simp, ?_⟩
          exact ⟨b :: ds, es, by simp, by simp, digits_cons b ds h1 hds, hes⟩
      | ExpectFractionalOrE =>
        dsimp only [] at h
        split_ifs at h with h1 h2
        · obtain ⟨d, rfl, rfl, hsuf⟩ := ih rest (by omega) _ _ _ _ h
          obtain ⟨ds, es, rfl, hds, hes⟩ := hsuf
          refine ⟨b :: (ds ++ es), by simp, by simp, ?_⟩
          exact ⟨b :: ds, es, by simp, digits_cons b ds h1 hds, hes⟩
        · obtain ⟨d, rfl, rfl, hsuf⟩ := ih rest (by omega) _ _ _ _ h
          obtain ⟨sgn, ds, rfl, hsgn, hne, hds⟩ := hsuf
          refine ⟨b :: (sgn ++ ds), by simp, by simp, ?_⟩
          exact ⟨[], b :: (sgn ++ ds), by simp, by simp,
            Or.inr ⟨b, sgn, ds, rfl, h2.symm, hsgn, hne, hds⟩⟩
        · simp only [Res.ok.injEq, Prod.mk.injEq] at h
          obtain ⟨rfl, rfl⟩ := h
          exact ⟨[], by simp, by simp, ⟨[], [], by simp, by simp, Or.inl rfl⟩⟩
      | ExpectEPlusMinusOrInitialExponent =>
        dsimp only [] at h
        split_ifs at h with h1 h2
        · obtain ⟨d, rfl, rfl, hsuf⟩ := ih rest (by omega) _ _ _ _ h
          obtain ⟨hne, hds⟩ := hsuf
          refine ⟨b :: d, by simp, by simp, ?_⟩
          refine ⟨[b], d, by simp, ?_, hne, hds⟩
          rcases h1 with rfl | rfl
          · exact Or.inr (Or.inl rfl)
          · exact Or.inr (Or.inr rfl)
        · obtain ⟨d, rfl, rfl, hsuf⟩ := ih rest (by omega) _ _ _ _ h
          refine ⟨b :: d, by simp, by simp, ?_⟩
          exact ⟨[], b :: d, by simp, Or.inl rfl, by simp, digits_cons b d h2 hsuf⟩
      | ExpectInitialExponent =>
        dsimp only [] at h
        split_ifs at h with h1
        · obtain ⟨d, rfl, rfl, hsuf⟩ := ih rest (by omega) _ _ _ _ h
          refine ⟨b :: d, by simp, by simp, ?_⟩
          exact ⟨by simp, digits_cons b d h1 hsuf⟩
      | ExpectExponent =>
        dsimp only [] at h
        split_ifs at h with h1
        · obtain ⟨d, rfl, rfl, hsuf⟩ := ih rest (by omega) _ _ _ _ h
          refine ⟨b :: d, by simp, by simp, ?_⟩
          exact digits_cons b d h1 hsuf
        · simp only [Res.ok.injEq, Prod.mk.injEq] at h
          obtain ⟨rfl, rfl⟩ := h
          exact ⟨[], by simp, by simp, by simp [NumSuffix]⟩

theorem read_number_string_sound (l n r : List Nat)
    (h : read_number_string l = .ok (n, r)) : NumberBytes n ∧ l = n ++ r := by
  obtain ⟨d, hl, hn, hsuf⟩ :=
    read_number_string_loop_sound l.length l le_rfl _ _ _ _ h
  have hn2 : n = d := by simpa using hn
  subst hn2
  exact ⟨hsuf, hl⟩

theorem read_next_token_none (l r : List Nat) (h : read_next_token l = .ok (none, r)) :
    skip_whitespace l = [] ∧ r = [] := by
  unfold read_next_token at h
  cases hsk : skip_whitespace l with
  | nil =>
    rw [hsk] at h
    dsimp only [] at h
    simp only [Res.ok.injEq, Prod.mk.injEq] at h
    exact ⟨rfl, h.2.symm⟩
  | cons b t =>
    rw [hsk] at h
    dsimp only [] at h
    exfalso
    cases hst : get_simple_token b with
    | some tk => rw [hst] at h; simp at h
    | none =>
      rw [hst] at h
      dsimp only [] at h
      by_cases hq : b = 0x22
      · rw [if_pos hq] at h
        cases hrs : read_string (b :: t) with
        | ok pr => rw [hrs] at h; obtain ⟨s0, r0⟩ := pr; simp at h
        | err e => rw [hrs] at h; simp at h
        | panic p => rw [hrs] at h; simp at h
      · rw [if_neg hq] at h
        by_cases hnum : b = 0x2D ∨ isDigitByte b = true
        · rw [if_pos hnum] at h
          cases hrn : read_number_string (b :: t) with
          | ok pr => rw [hrn] at h; obtain ⟨n0, r0⟩ := pr; simp at h
          | err e => rw [hrn] at h; simp at h
          | panic p => rw [hrn] at h; simp at h
        · rw [if_neg hnum] at h
          match t, h with
          | [], h => simp at h
          | [b2], h => simp at h
          | [b2, b3], h => simp at h
          | b2 :: b3 :: b4 :: tail, h => ?_
          dsimp only [] at h
          by_cases htr : b = 0x74 ∧ b2 = 0x72 ∧ b3 = 0x75 ∧ b4 = 0x65
          · rw [if_pos htr] at h; simp at h
          · rw [if_neg htr] at h
            by_cases hnl : b = 0x6E ∧ b2 = 0x75 ∧ b3 = 0x6C ∧ b4 = 0x6C
            · rw [if_pos hnl] at h; simp at h
            · rw [if_neg hnl] at h
              by_cases hfl : b = 0x66 ∧ b2 = 0x61 ∧ b3 = 0x6C ∧ b4 = 0x73
              · rw [if_pos hfl] at h
                cases tail with
                | nil => simp at h
                | cons c tail2 =>
                  dsimp only [] at h
                  by_cases hce : c = 0x65
                  · rw [if_pos hce] at h; simp at h
                  · rw [if_neg hce] at h; simp at h
              · rw [if_neg hfl] at h; simp at h

theorem verify_finish_true (s : List JsonStackValue) (r : List Nat)
    (h : verify_finish s r = true) : s = [] ∧ WsList r := by
  unfold verify_finish at h
  split_ifs at h with h1
  have hs : s = [] := by
    cases s with
    | nil => rfl
    | cons f s2 => simp at h1
  refine ⟨hs, ?_⟩
  cases hsw : (skip_whitespace r).head? with
  | some b => rw [hsw] at h; simp at h
  | none =>
    have h2 : skip_whitespace r = [] := List.head?_eq_none_iff.mp hsw
    exact List.dropWhile_eq_nil_iff.mp h2

theorem read_next_token_sound (l : List Nat) (tok : JsonToken) (r : List Nat)
    (h : read_next_token l = .ok (some tok, r)) :
    ∃ w, WsList w ∧
      ((∃ c, get_simple_token c = some tok ∧ l = w ++ (c :: r)) ∨
       (∃ inner cs, tok = .String cs ∧ StrChars inner cs ∧
         l = w ++ ((0x22 :: (inner ++ [0x22])) ++ r)) ∨
       (∃ n, tok = .Number n ∧ NumberBytes n ∧ l = w ++ (n ++ r)) ∨
       (tok = .True ∧ l = w ++ (0x74 :: 0x72 :: 0x75 :: 0x65 :: r)) ∨
       (tok = .Null ∧ l = w ++ (0x6E :: 0x75 :: 0x6C :: 0x6C :: r)) ∨
       (tok = .False ∧ l = w ++ (0x66 :: 0x61 :: 0x6C :: 0x73 :: 0x65 :: r))) := by
  obtain ⟨w, hw, hdec⟩ := skip_whitespace_decomp l
  refine ⟨w, hw, ?_⟩
  unfold read_next_token at h
  cases hsk : skip_whitespace l with
  | nil => rw [hsk] at h; simp at h
  | cons b t =>
    rw [hsk] at hdec
    rw [hsk] at h
    dsimp only [] at h
    cases hst : get_simple_token b with
    | some tk =>
      rw [hst] at h
      dsimp only [] at h
      simp only [Res.ok.injEq, Prod.mk.injEq, Option.some.injEq] at h
      obtain ⟨rfl, rfl⟩ := h
      exact Or.inl ⟨b, hst, hdec⟩
    | none =>
      rw [hst] at h
      dsimp only [] at h
      by_cases hq : b = 0x22
      · rw [if_pos hq] at h
        subst hq
        cases hrs : read_string (0x22 :: t) with
        | err e => rw [hrs] at h; simp at h
        | panic p => rw [hrs] at h; simp at h
        | ok pr =>
          obtain ⟨s0, r0⟩ := pr
          rw [hrs] at h
          dsimp only [] at h
          simp only [Res.ok.injEq, Prod.mk.injEq, Option.some.injEq] at h
          obtain ⟨rfl, rfl⟩ := h
          rw [read_string_cons, if_pos rfl] at hrs
          obtain ⟨inner, cs, ht, hsc, hs0⟩ :=
            read_string_loop_sound t.length t le_rfl [] s0 r0 hrs
          refine Or.inr (Or.inl ⟨inner, cs, by rw [hs0]; simp, hsc, ?_⟩)
          rw [hdec, ht]
          simp
      · rw [if_neg hq] at h
        by_cases hnum : b = 0x2D ∨ isDigitByte b = true
        · rw [if_pos hnum] at h
          cases hrn : read_number_string (b :: t) with
          | err e => rw [hrn] at h; simp at h
          | panic p => rw [hrn] at h; simp at h
          | ok pr =>
            obtain ⟨n0, r0⟩ := pr
            rw [hrn] at h
            dsimp only [] at h
            simp only [Res.ok.injEq, Prod.mk.injEq, Option.some.injEq] at h
            obtain ⟨rfl, rfl⟩ := h
            obtain ⟨hnb, hbt⟩ := read_number_string_sound (b :: t) n0 r0 hrn
            refine Or.inr (Or.inr (Or.inl ⟨n0, rfl, hnb, ?_⟩))
            rw [hdec, hbt]
        · rw [if_neg hnum] at h
          match t, hdec, h with
          | [], _, h => simp at h
          | [b2], _, h => simp at h
          | [b2, b3], _, h => simp at h
          | b2 :: b3 :: b4 :: tail, hdec, h => ?_
          dsimp only [] at h
          by_cases htr : b = 0x74 ∧ b2 = 0x72 ∧ b3 = 0x75 ∧ b4 = 0x65
          · rw [if_pos htr] at h
            simp only [Res.ok.injEq, Prod.mk.injEq, Option.some.injEq] at h
            obtain ⟨rfl, rfl⟩ := h
            obtain ⟨rfl, rfl, rfl, rfl⟩ := htr
            exact Or.inr (Or.inr (Or.inr (Or.inl ⟨rfl, hdec⟩)))
          · rw [if_neg htr] at h
            by_cases hnl : b = 0x6E ∧ b2 = 0x75 ∧ b3 = 0x6C ∧ b4 = 0x6C
            · rw [if_pos hnl] at h
              simp only [Res.ok.injEq, Prod.mk.injEq, Option.some.injEq] at h
              obtain ⟨rfl, rfl⟩ := h
              obtain ⟨rfl, rfl, rfl, rfl⟩ := hnl
              exact Or.inr (Or.inr (Or.inr (Or.inr (Or.inl ⟨rfl, hdec⟩))))
            · rw [if_neg hnl] at h
              by_cases hfl : b = 0x66 ∧ b2 = 0x61 ∧ b3 = 0x6C ∧ b4 = 0x73
              · rw [if_pos hfl] at h
                cases tail with
                | nil => simp at h
                | cons c tail2 =>
                  dsimp only [] at h
                  by_cases hce : c = 0x65
                  · rw [if_pos hce] at h
                    simp only [Res.ok.injEq, Prod.mk.injEq, Option.some.injEq] at h
                    obtain ⟨rfl, rfl⟩ := h
                    obtain ⟨rfl, rfl, rfl, rfl⟩ := hfl
                    subst hce
                    exact Or.inr (Or.inr (Or.inr (Or.inr (Or.inr ⟨rfl, hdec⟩))))
                  · rw [if_neg hce] at h
                    simp at h
              · rw [if_neg hfl] at h
                simp at h

/-! ## Verifier soundness: accepted runs decompose into grammar derivations -/

theorem mask_key_false (e : Nat) (s : List JsonStackValue) (hok : StateOK e s)
    (hcv : ParserExpects.contains e ParserExpects.VALUE = true) :
    ParserExpects.contains e ParserExpects.KEY = false := by
  cases s with
  | nil => rw [stateOK_nil_elim e hok]; decide
  | cons f s2 =>
    cases f with
    | Array i =>
      rcases stateOK_array_elim e i s2 hok with rfl | rfl | rfl
      · decide
      · decide
      · exact absurd hcv (by decide)
    | Object ks ck =>
      rcases stateOK_object_elim e ks ck s2 hok with rfl | rfl | rfl | rfl | rfl
      · exact absurd hcv (by decide)
      · exact absurd hcv (by decide)
      · exact absurd hcv (by decide)
      · decide
      · exact absurd hcv (by decide)

theorem contspec_value (e : Nat) (s : List JsonStackValue) (w v r : List Nat)
    (hok : StateOK e s)
    (hcv : ParserExpects.contains e ParserExpects.VALUE = true)
    (hkey : ParserExpects.contains e ParserExpects.KEY = false)
    (hw : WsList w) (hv : G .value v) (hc : ContStack s r) :
    ContSpec e s (w ++ (v ++ r)) := by
  cases s with
  | nil => exact Or.inr ⟨w, v, r, by simp, hw, hv, hc⟩
  | cons f s2 =>
    cases f with
    | Array i =>
      obtain ⟨b, rest, rfl, hb, hcs⟩ := hc
      refine ⟨w ++ v ++ b, rest, by simp, ?_, hcs⟩
      rcases stateOK_array_elim e i s2 hok with rfl | rfl | rfl
      · exact G.arrFirst (G.arrValueI hw hv hb)
      · exact G.arrValueI hw hv hb
      · exact absurd hcv (by decide)
    | Object ks ck =>
      obtain ⟨b, rest, rfl, hb, hcs⟩ := hc
      refine ⟨w ++ v ++ b, rest, by simp, ?_, hcs⟩
      rcases stateOK_object_elim e ks ck s2 hok with rfl | rfl | rfl | rfl | rfl
      · exact absurd hkey (by decide)
      · exact absurd hkey (by decide)
      · exact absurd hcv (by decide)
      · exact G.postColonI hw hv hb
      · exact absurd hcv (by decide)

theorem verify_from_sound :
    ∀ (m : Nat) (l : List Nat), l.length ≤ m → ∀ e s, StateOK e s →
      verify_from l e s = .result true → ContSpec e s l := by
  intro m
  induction m with
  | zero =>
    intro l hlen e s hok h
    obtain rfl : l = [] := List.length_eq_zero.mp (Nat.le_zero.mp hlen)
    rw [verify_from_step] at h
    unfold verify_step at h
    rw [show read_next_token [] = .ok (none, []) from rfl] at h
    dsimp only [] at h
    obtain ⟨rfl, hwr⟩ := verify_finish_true s [] (by simpa using h)
    exact Or.inl (by intro b hb; cases hb)
  | succ m ih =>
    intro l hlen e s hok h
    rw [verify_from_step] at h
    unfold verify_step at h
    cases hrt : read_next_token l with
    | err er => rw [hrt] at h; simp at h
    | panic p => rw [hrt] at h; simp at h
    | ok pr =>
      obtain ⟨otok, r⟩ := pr
      rw [hrt] at h
      cases otok with
      | none =>
        dsimp only [] at h
        obtain ⟨rfl, hwr⟩ := verify_finish_true s r (by simpa using h)
        obtain ⟨hskl, rfl⟩ := read_next_token_none l r hrt
        exact Or.inl (List.dropWhile_eq_nil_iff.mp hskl)
      | some tok =>
        have hlt : r.length < l.length := read_next_token_consumes l tok r hrt
        obtain ⟨w, hw, hcases⟩ := read_next_token_sound l tok r hrt
        dsimp only [] at h
        cases tok with
        | Null =>
          rcases hcases with ⟨c, hc, rfl⟩ | ⟨i1, c1, heq, hsc1, rfl⟩ | ⟨n1, heq, hn1, rfl⟩ |
            ⟨heq, rfl⟩ | ⟨heq, rfl⟩ | ⟨heq, rfl⟩
          · rcases get_simple_token_inv c _ hc with ⟨rfl, h2⟩ | ⟨rfl, h2⟩ | ⟨rfl, h2⟩ |
              ⟨rfl, h2⟩ | ⟨rfl, h2⟩ | ⟨rfl, h2⟩ <;> cases h2
          · cases heq
          · cases heq
          · cases heq
          · dsimp only [] at h
            split_ifs at h with hcv
            · have hkey := mask_key_false e s hok hcv
              have hcs : ContStack s r := by
                cases s with
                | nil =>
                  dsimp only [] at h
                  exact (verify_finish_true [] r (by simpa using h)).2
                | cons f s2 =>
                  cases f with
                  | Array i =>
                    dsimp only [] at h
                    exact ih r (by omega)
                      (ParserExpects.COMMA ||| ParserExpects.CLOSING_BRACKET)
                      (.Array i :: s2) (Or.inr (Or.inr rfl)) h
                  | Object ks ck =>
                    dsimp only [] at h
                    exact ih r (by omega)
                      (ParserExpects.COMMA ||| ParserExpects.CLOSING_BRACE)
                      (.Object ks ck :: s2) (Or.inr (Or.inr (Or.inr (Or.inr rfl)))) h
              exact contspec_value e s w [0x6E, 0x75, 0x6C, 0x6C] r hok hcv hkey hw G.null hcs
            · simp at h
          · cases heq
        | True =>
          rcases hcases with ⟨c, hc, rfl⟩ | ⟨i1, c1, heq, hsc1, rfl⟩ | ⟨n1, heq, hn1, rfl⟩ |
            ⟨heq, rfl⟩ | ⟨heq, rfl⟩ | ⟨heq, rfl⟩
          · rcases get_simple_token_inv c _ hc with ⟨rfl, h2⟩ | ⟨rfl, h2⟩ | ⟨rfl, h2⟩ |
              ⟨rfl, h2⟩ | ⟨rfl, h2⟩ | ⟨rfl, h2⟩ <;> cases h2
          · cases heq
          · cases heq
          · dsimp only [] at h
            split_ifs at h with hcv
            · have hkey := mask_key_false e s hok hcv
              have hcs : ContStack s r := by
                cases s with
                | nil =>
                  dsimp only [] at h
                  exact (verify_finish_true [] r (by simpa using h)).2
                | cons f s2 =>
                  cases f with
                  | Array i =>
                    dsimp only [] at h
                    exact ih r (by omega)
                      (ParserExpects.COMMA ||| ParserExpects.CLOSING_BRACKET)
                      (.Array i :: s2) (Or.inr (Or.inr rfl)) h
                  | Object ks ck =>
                    dsimp only [] at h
                    exact ih r (by omega)
                      (ParserExpects.COMMA ||| ParserExpects.CLOSING_BRACE)
                      (.Object ks ck :: s2) (Or.inr (Or.inr (Or.inr (Or.inr rfl)))) h
              exact contspec_value e s w [0x74, 0x72, 0x75, 0x65] r hok hcv hkey hw G.tru hcs
            · simp at h
          · cases heq
          · cases heq
        | False =>
          rcases hcases with ⟨c, hc, rfl⟩ | ⟨i1, c1, heq, hsc1, rfl⟩ | ⟨n1, heq, hn1, rfl⟩ |
            ⟨heq, rfl⟩ | ⟨heq, rfl⟩ | ⟨heq, rfl⟩
          · rcases get_simple_token_inv c _ hc with ⟨rfl, h2⟩ | ⟨rfl, h2⟩ | ⟨rfl, h2⟩ |
              ⟨rfl, h2⟩ | ⟨rfl, h2⟩ | ⟨rfl, h2⟩ <;> cases h2
          · cases heq
          · cases heq
          · cases heq
          · cases heq
          · dsimp only [] at h
            split_ifs at h with hcv
            · have hkey := mask_key_false e s hok hcv
              have hcs : ContStack s r := by
                cases s with
                | nil =>
                  dsimp only [] at h
                  exact (verify_finish_true [] r (by simpa using h)).2
                | cons f s2 =>
                  cases f with
                  | Array i =>
                    dsimp only [] at h
                    exact ih r (by omega)
                      (ParserExpects.COMMA ||| ParserExpects.CLOSING_BRACKET)
                      (.Array i :: s2) (Or.inr (Or.inr rfl)) h
                  | Object ks ck =>
                    dsimp only [] at h
                    exact ih r (by omega)
                      (ParserExpects.COMMA ||| ParserExpects.CLOSING_BRACE)
                      (.Object ks ck :: s2) (Or.inr (Or.inr (Or.inr (Or.inr rfl)))) h
              exact contspec_value e s w [0x66, 0x61, 0x6C, 0x73, 0x65] r hok hcv hkey hw
                G.fal hcs
            · simp at h
        | Number nb =>
          rcases hcases with ⟨c, hc, rfl⟩ | ⟨i1, c1, heq, hsc1, rfl⟩ | ⟨n1, heq, hn1, rfl⟩ |
            ⟨heq, rfl⟩ | ⟨heq, rfl⟩ | ⟨heq, rfl⟩
          · rcases get_simple_token_inv c _ hc with ⟨rfl, h2⟩ | ⟨rfl, h2⟩ | ⟨rfl, h2⟩ |
              ⟨rfl, h2⟩ | ⟨rfl, h2⟩ | ⟨rfl, h2⟩ <;> cases h2
          · cases heq
          · cases heq
            dsimp only [] at h
            split_ifs at h with hcv
            · have hkey := mask_key_false e s hok hcv
              have hcs : ContStack s r := by
                cases s with
                | nil =>
                  dsimp only [] at h
                  exact (verify_finish_true [] r (by simpa using h)).2
                | cons f s2 =>
                  cases f with
                  | Array i =>
                    dsimp only [] at h
                    exact ih r (by omega)
                      (ParserExpects.COMMA ||| ParserExpects.CLOSING_BRACKET)
                      (.Array i :: s2) (Or.inr (Or.inr rfl)) h
                  | Object ks ck =>
                    dsimp only [] at h
                    exact ih r (by omega)
                      (ParserExpects.COMMA ||| ParserExpects.CLOSING_BRACE)
                      (.Object ks ck :: s2) (Or.inr (Or.inr (Or.inr (Or.inr rfl)))) h
              exact contspec_value e s w nb r hok hcv hkey hw (G.num hn1) hcs
            · simp at h
          · cases heq
          · cases heq
          · cases heq
        | String cs =>
          rcases hcases with ⟨c, hc, rfl⟩ | ⟨inner, cs2, heq, hsc, rfl⟩ | ⟨n1, heq, hn1, rfl⟩ |
            ⟨heq, rfl⟩ | ⟨heq, rfl⟩ | ⟨heq, rfl⟩
          · rcases get_simple_token_inv c _ hc with ⟨rfl, h2⟩ | ⟨rfl, h2⟩ | ⟨rfl, h2⟩ |
              ⟨rfl, h2⟩ | ⟨rfl, h2⟩ | ⟨rfl, h2⟩ <;> cases h2
          · cases heq
            dsimp only [] at h
            cases hint : interpret_string cs with
            | err e2 => rw [hint] at h; simp at h
            | panic p => rw [hint] at h; simp at h
            | ok ps =>
              rw [hint] at h
              dsimp only [] at h
              by_cases hck : ParserExpects.contains e ParserExpects.KEY = true
              · rw [if_pos hck] at h
                cases s with
                | nil =>
                  obtain rfl := stateOK_nil_elim e hok
                  exact absurd hck (by decide)
                | cons f s2 =>
                  cases f with
                  | Array i =>
                    rcases stateOK_array_elim e i s2 hok with rfl | rfl | rfl <;>
                      exact absurd hck (by decide)
                  | Object ks ck =>
                    dsimp only [] at h
                    by_cases hmem : ps ∈ ks
                    · rw [if_pos hmem] at h; simp at h
                    · rw [if_neg hmem] at h
                      have hspec : ∃ b2 rest2, r = b2 ++ rest2 ∧
                          G (.postKey (ks ++ [ps])) b2 ∧ ContStack s2 rest2 :=
                        ih r (by omega) ParserExpects.COLON
                          (.Object (ks ++ [ps]) (some ps) :: s2)
                          (Or.inr (Or.inr (Or.inl rfl))) h
                      obtain ⟨b2, rest2, rfl, hpk, hcs2⟩ := hspec
                      refine ⟨w ++ (0x22 :: (inner ++ [0x22])) ++ b2, rest2, by simp, ?_, hcs2⟩
                      have hmem2 : G (.member ks) (w ++ (0x22 :: (inner ++ [0x22])) ++ b2) :=
                        G.memberI hw ⟨inner, cs, rfl, hsc, hint⟩ hmem hpk
                      rcases stateOK_object_elim e ks ck s2 hok with rfl | rfl | rfl | rfl | rfl
                      · exact G.objFirst hmem2
                      · exact hmem2
                      · exact absurd hck (by decide)
                      · exact absurd hck (by decide)
                      · exact absurd hck (by decide)
              · rw [if_neg hck] at h
                split_ifs at h with hcv
                · have hkey : ParserExpects.contains e ParserExpects.KEY = false := by
                    simpa using hck
                  have hcs : ContStack s r := by
                    cases s with
                    | nil =>
                      dsimp only [] at h
                      exact (verify_finish_true [] r (by simpa using h)).2
                    | cons f s2 =>
                      cases f with
                      | Array i =>
                        dsimp only [] at h
                        exact ih r (by omega)
                          (ParserExpects.COMMA ||| ParserExpects.CLOSING_BRACKET)
                          (.Array i :: s2) (Or.inr (Or.inr rfl)) h
                      | Object ks ck =>
                        dsimp only [] at h
                        exact ih r (by omega)
                          (ParserExpects.COMMA ||| ParserExpects.CLOSING_BRACE)
                          (.Object ks ck :: s2) (Or.inr (Or.inr (Or.inr (Or.inr rfl)))) h
                  exact contspec_value e s w (0x22 :: (inner ++ [0x22])) r hok hcv hkey hw
                    (G.str ⟨inner, cs, rfl, hsc, hint⟩) hcs
                · simp at h
          · cases heq
          · cases heq
          · cases heq
          · cases heq
        | Colon =>
          rcases hcases with ⟨c, hc, rfl⟩ | ⟨inner, cs2, heq, hsc, rfl⟩ | ⟨n1, heq, hn1, rfl⟩ |
            ⟨heq, rfl⟩ | ⟨heq, rfl⟩ | ⟨heq, rfl⟩
          · rcases get_simple_token_inv c _ hc with ⟨rfl, h2⟩ | ⟨rfl, h2⟩ | ⟨rfl, h2⟩ |
              ⟨rfl, h2⟩ | ⟨rfl, h2⟩ | ⟨rfl, h2⟩ <;> cases h2
            dsimp only [] at h
            split_ifs at h with hcc
            · cases s with
              | nil =>
                obtain rfl := stateOK_nil_elim e hok
                exact absurd hcc (by decide)
              | cons f s2 =>
                cases f with
                | Array i =>
                  rcases stateOK_array_elim e i s2 hok with rfl | rfl | rfl <;>
                    exact absurd hcc (by decide)
                | Object ks ck =>
                  rcases stateOK_object_elim e ks ck s2 hok with rfl | rfl | rfl | rfl | rfl
                  · exact absurd hcc (by decide)
                  · exact absurd hcc (by decide)
                  · dsimp only [] at h
                    have hspec : ∃ b2 rest2, r = b2 ++ rest2 ∧
                        G (.postColon ks) b2 ∧ ContStack s2 rest2 :=
                      ih r (by omega) ParserExpects.VALUE (.Object ks ck :: s2)
                        (Or.inr (Or.inr (Or.inr (Or.inl rfl)))) h
                    obtain ⟨b2, rest2, rfl, hpc, hcs2⟩ := hspec
                    refine ⟨w ++ 0x3A :: b2, rest2, by simp, ?_, hcs2⟩
                    exact G.postKeyI hw hpc
                  · exact absurd hcc (by decide)
                  · exact absurd hcc (by decide)
            · simp at h
          · cases heq
          · cases heq
          · cases heq
          · cases heq
          · cases heq
        | Comma =>
          rcases hcases with ⟨c, hc, rfl⟩ | ⟨inner, cs2, heq, hsc, rfl⟩ | ⟨n1, heq, hn1, rfl⟩ |
            ⟨heq, rfl⟩ | ⟨heq, rfl⟩ | ⟨heq, rfl⟩
          · rcases get_simple_token_inv c _ hc with ⟨rfl, h2⟩ | ⟨rfl, h2⟩ | ⟨rfl, h2⟩ |
              ⟨rfl, h2⟩ | ⟨rfl, h2⟩ | ⟨rfl, h2⟩ <;> cases h2
            dsimp only [] at h
            split_ifs at h with hcm
            · cases s with
              | nil =>
                obtain rfl := stateOK_nil_elim e hok
                exact absurd hcm (by decide)
              | cons f s2 =>
                cases f with
                | Array i =>
                  rcases stateOK_array_elim e i s2 hok with rfl | rfl | rfl
                  · exact absurd hcm (by decide)
                  · exact absurd hcm (by decide)
                  · dsimp only [] at h
                    have hspec : ∃ b2 rest2, r = b2 ++ rest2 ∧
                        G .arrValue b2 ∧ ContStack s2 rest2 :=
                      ih r (by omega) ParserExpects.VALUE (.Array (i + 1) :: s2)
                        (Or.inr (Or.inl rfl)) h
                    obtain ⟨b2, rest2, rfl, hav, hcs2⟩ := hspec
                    refine ⟨w ++ 0x2C :: b2, rest2, by simp, ?_, hcs2⟩
                    exact G.arrComma hw hav
                | Object ks ck =>
                  rcases stateOK_object_elim e ks ck s2 hok with rfl | rfl | rfl | rfl | rfl
                  · exact absurd hcm (by decide)
                  · exact absurd hcm (by decide)
                  · exact absurd hcm (by decide)
                  · exact absurd hcm (by decide)
                  · dsimp only [] at h
                    have hspec : ∃ b2 rest2, r = b2 ++ rest2 ∧
                        G (.member ks) b2 ∧ ContStack s2 rest2 :=
                      ih r (by omega) ParserExpects.KEY (.Object ks none :: s2)
                        (Or.inr (Or.inl rfl)) h
                    obtain ⟨b2, rest2, rfl, hmb, hcs2⟩ := hspec
                    refine ⟨w ++ 0x2C :: b2, rest2, by simp, ?_, hcs2⟩
                    exact G.objComma hw hmb
            · simp at h
          · cases heq
          · cases heq
          · cases heq
          · cases heq
          · cases heq
        | OpeningBracket =>
          rcases hcases with ⟨c, hc, rfl⟩ | ⟨inner, cs2, heq, hsc, rfl⟩ | ⟨n1, heq, hn1, rfl⟩ |
            ⟨heq, rfl⟩ | ⟨heq, rfl⟩ | ⟨heq, rfl⟩
          · rcases get_simple_token_inv c _ hc with ⟨rfl, h2⟩ | ⟨rfl, h2⟩ | ⟨rfl, h2⟩ |
              ⟨rfl, h2⟩ | ⟨rfl, h2⟩ | ⟨rfl, h2⟩ <;> cases h2
            dsimp only [] at h
            split_ifs at h with hcv
            · have hkey := mask_key_false e s hok hcv
              have hspec : ∃ b2 rest2, r = b2 ++ rest2 ∧
                  G .afterArrOpen b2 ∧ ContStack s rest2 :=
                ih r (by omega)
                  (ParserExpects.VALUE ||| ParserExpects.CLOSING_BRACKET)
                  (.Array 0 :: s) (Or.inl rfl) h
              obtain ⟨b2, rest2, rfl, hao, hcs2⟩ := hspec
              exact contspec_value e s w (0x5B :: b2) rest2 hok hcv hkey hw (G.arr hao) hcs2
            · simp at h
          · cases heq
          · cases heq
          · cases heq
          · cases heq
          · cases heq
        | OpeningBrace =>
          rcases hcases with ⟨c, hc, rfl⟩ | ⟨inner, cs2, heq, hsc, rfl⟩ | ⟨n1, heq, hn1, rfl⟩ |
            ⟨heq, rfl⟩ | ⟨heq, rfl⟩ | ⟨heq, rfl⟩
          · rcases get_simple_token_inv c _ hc with ⟨rfl, h2⟩ | ⟨rfl, h2⟩ | ⟨rfl, h2⟩ |
              ⟨rfl, h2⟩ | ⟨rfl, h2⟩ | ⟨rfl, h2⟩ <;> cases h2
            dsimp only [] at h
            split_ifs at h with hcv
            · have hkey := mask_key_false e s hok hcv
              have hspec : ∃ b2 rest2, r = b2 ++ rest2 ∧
                  G (.objOpenTail []) b2 ∧ ContStack s rest2 :=
                ih r (by omega)
                  (ParserExpects.KEY ||| ParserExpects.CLOSING_BRACE)
                  (.Object [] none :: s) (Or.inl rfl) h
              obtain ⟨b2, rest2, rfl, hoo, hcs2⟩ := hspec
              exact contspec_value e s w (0x7B :: b2) rest2 hok hcv hkey hw (G.obj hoo) hcs2
            · simp at h
          · cases heq
          · cases heq
          · cases heq
          · cases heq
          · cases heq
        | ClosingBracket =>
          rcases hcases with ⟨c, hc, rfl⟩ | ⟨inner, cs2, heq, hsc, rfl⟩ | ⟨n1, heq, hn1, rfl⟩ |
            ⟨heq, rfl⟩ | ⟨heq, rfl⟩ | ⟨heq, rfl⟩
          · rcases get_simple_token_inv c _ hc with ⟨rfl, h2⟩ | ⟨rfl, h2⟩ | ⟨rfl, h2⟩ |
              ⟨rfl, h2⟩ | ⟨rfl, h2⟩ | ⟨rfl, h2⟩ <;> cases h2
            dsimp only [] at h
            split_ifs at h with hcb
            · cases s with
              | nil =>
                obtain rfl := stateOK_nil_elim e hok
                exact absurd hcb (by decide)
              | cons f s2 =>
                cases f with
                | Object ks ck =>
                  rcases stateOK_object_elim e ks ck s2 hok with rfl | rfl | rfl | rfl | rfl <;>
                    exact absurd hcb (by decide)
                | Array i =>
                  dsimp only [] at h
                  have hcs : ContStack s2 r := by
                    cases s2 with
                    | nil =>
                      dsimp only [] at h
                      exact (verify_finish_true [] r (by simpa using h)).2
                    | cons f2 s3 =>
                      cases f2 with
                      | Array j =>
                        dsimp only [] at h
                        exact ih r (by omega)
                          (ParserExpects.COMMA ||| ParserExpects.CLOSING_BRACKET)
                          (.Array j :: s3) (Or.inr (Or.inr rfl)) h
                      | Object ks2 ck2 =>
                        dsimp only [] at h
                        exact ih r (by omega)
                          (ParserExpects.COMMA ||| ParserExpects.CLOSING_BRACE)
                          (.Object ks2 ck2 :: s3) (Or.inr (Or.inr (Or.inr (Or.inr rfl)))) h
                  refine ⟨w ++ [0x5D], r, by simp, ?_, hcs⟩
                  rcases stateOK_array_elim e i s2 hok with rfl | rfl | rfl
                  · exact G.arrNil hw
                  · exact absurd hcb (by decide)
                  · exact G.arrClose hw
            · simp at h
          · cases heq
          · cases heq
          · cases heq
          · cases heq
          · cases heq
        | ClosingBrace =>
          rcases hcases with ⟨c, hc, rfl⟩ | ⟨inner, cs2, heq, hsc, rfl⟩ | ⟨n1, heq, hn1, rfl⟩ |
            ⟨heq, rfl⟩ | ⟨heq, rfl⟩ | ⟨heq, rfl⟩
          · rcases get_simple_token_inv c _ hc with ⟨rfl, h2⟩ | ⟨rfl, h2⟩ | ⟨rfl, h2⟩ |
              ⟨rfl, h2⟩ | ⟨rfl, h2⟩ | ⟨rfl, h2⟩ <;> cases h2
            dsimp only [] at h
            split_ifs at h with hcb
            · cases s with
              | nil =>
                obtain rfl := stateOK_nil_elim e hok
                exact absurd hcb (by decide)
              | cons f s2 =>
                cases f with
                | Array i =>
                  rcases stateOK_array_elim e i s2 hok with rfl | rfl | rfl <;>
                    exact absurd hcb (by decide)
                | Object ks ck =>
                  dsimp only [] at h
                  have hcs : ContStack s2 r := by
                    cases s2 with
                    | nil =>
                      dsimp only [] at h
                      exact (verify_finish_true [] r (by simpa using h)).2
                    | cons f2 s3 =>
                      cases f2 with
                      | Array j =>
                        dsimp only [] at h
                        exact ih r (by omega)
                          (ParserExpects.COMMA ||| ParserExpects.CLOSING_BRACKET)
                          (.Array j :: s3) (Or.inr (Or.inr rfl)) h
                      | Object ks2 ck2 =>
                        dsimp only [] at h
                        exact ih r (by omega)
                          (ParserExpects.COMMA ||| ParserExpects.CLOSING_BRACE)
                          (.Object ks2 ck2 :: s3) (Or.inr (Or.inr (Or.inr (Or.inr rfl)))) h
                  refine ⟨w ++ [0x7D], r, by simp, ?_, hcs⟩
                  rcases stateOK_object_elim e ks ck s2 hok with rfl | rfl | rfl | rfl | rfl
                  · exact G.objNil hw
                  · exact absurd hcb (by decide)
                  · exact absurd hcb (by decide)
                  · exact absurd hcb (by decide)
                  · exact G.objClose hw
            · simp at h
          · cases heq
          · cases heq
          · cases heq
          · cases heq
          · cases heq

theorem verify_sound_doc (l : List Nat) (h : verify l = .result true) :
    WsList l ∨ GDoc l := by
  unfold verify at h
  exact verify_from_sound l.length l le_rfl ParserExpects.VALUE [] rfl h

/-- C1 (amended): `verify` returns true exactly on the inputs that are entirely
whitespace or one JSON document of the code's grammar `G` — RFC 8259 structure
with the two implemented deviations: object keys must be pairwise distinct after
string decoding, and string tokens are any quote-delimited character units whose
decoding by `interpret_string` succeeds — followed by only whitespace. -/
theorem C1_characterization :
    ∀ l : List Nat, verify l = .result true ↔ (WsList l ∨ GDoc l) := by
  intro l
  constructor
  · exact verify_sound_doc l
  · intro h
    rcases h with h | h
    · exact verify_ws_true l h
    · exact verify_gdoc l h

/-- Counterexample to C1 as stated: the RFC 8259 grammar accepts the document
with the duplicated member name a (derived here in the pure RFC grammar `R`),
but `verify` rejects it. -/
theorem C1_rfc_counterexample :
    RfcDoc dupKeyBytes ∧ verify dupKeyBytes = .result false := by
  have hwn : WsList ([] : List Nat) := by intro b hb; cases hb
  have hch : RfcChars [0x61] :=
    RfcChars.cons
      (RfcChar.unescaped 0x61 [0x61] (Utf8Enc.one 0x61 (by decide)) (by decide))
      RfcChars.nil
  have hstr : RfcString [0x22, 0x61, 0x22] := ⟨[0x61], rfl, hch⟩
  have hnum : R .value [0x30] :=
    R.num ⟨[], [0x30], [], [], by simp, Or.inl rfl, Or.inl rfl, Or.inl rfl, Or.inl rfl⟩
  have ht1 : R .objTail [0x7D] := @R.objClose [] hwn
  have hpc1 : R .postColon [0x30, 0x7D] := @R.postColonI [] [0x30] [0x7D] hwn hnum ht1
  have hpk1 : R .postKey [0x3A, 0x30, 0x7D] := @R.postKeyI [] [0x30, 0x7D] hwn hpc1
  have hm1 : R .member [0x22, 0x61, 0x22, 0x3A, 0x30, 0x7D] :=
    @R.memberI [] [0x22, 0x61, 0x22] [0x3A, 0x30, 0x7D] hwn hstr hpk1
  have ht2 : R .objTail [0x2C, 0x22, 0x61, 0x22, 0x3A, 0x30, 0x7D] :=
    @R.objComma [] [0x22, 0x61, 0x22, 0x3A, 0x30, 0x7D] hwn hm1
  have hpc2 : R .postColon [0x30, 0x2C, 0x22, 0x61, 0x22, 0x3A, 0x30, 0x7D] :=
    @R.postColonI [] [0x30] [0x2C, 0x22, 0x61, 0x22, 0x3A, 0x30, 0x7D] hwn hnum ht2
  have hpk2 : R .postKey [0x3A, 0x30, 0x2C, 0x22, 0x61, 0x22, 0x3A, 0x30, 0x7D] :=
    @R.postKeyI [] [0x30, 0x2C, 0x22, 0x61, 0x22, 0x3A, 0x30, 0x7D] hwn hpc2
  have hm2 :
      R .member [0x22, 0x61, 0x22, 0x3A, 0x30, 0x2C, 0x22, 0x61, 0x22, 0x3A, 0x30, 0x7D] :=
    @R.memberI [] [0x22, 0x61, 0x22] [0x3A, 0x30, 0x2C, 0x22, 0x61, 0x22, 0x3A, 0x30, 0x7D]
      hwn hstr hpk2
  have hobj : R .value dupKeyBytes := R.obj (R.objFirst hm2)
  refine ⟨⟨[], dupKeyBytes, [], by simp, hwn, hobj, hwn⟩, ?_⟩
  decide

/-- C8: verification is a deterministic pure function of the byte stream: two
sources that hold the same bytes (same length, same byte at every position)
verify to the same outcome, hence in particular to the same boolean result. -/
theorem C8_deterministic (l1 l2 : List Nat)
    (hlen : l1.length = l2.length)
    (hbytes : ∀ (i : Nat) (h1 : i < l1.length) (h2 : i < l2.length), l1[i] = l2[i]) :
    verify l1 = verify l2 := by
  have hl : l1 = l2 := List.ext_getElem hlen hbytes
  rw [hl]

/-- Witness for C8: two sources spelled differently but holding the bytes of the
text true verify identically. -/
theorem C8_deterministic_witness :
    ([0x74, 0x72, 0x75, 0x65] : List Nat).length = ([0x74] ++ [0x72, 0x75, 0x65]).length ∧
    verify [0x74, 0x72, 0x75, 0x65] = verify ([0x74] ++ [0x72, 0x75, 0x65]) :=
  ⟨by decide, C8_deterministic [0x74, 0x72, 0x75, 0x65] ([0x74] ++ [0x72, 0x75, 0x65])
    (by decide) (fun i h1 h2 => by
      have h3 : i < 4 := by simpa using h1
      interval_cases i <;> rfl)⟩

end Jsonvfy
